import Mathlib

/-!
Verification of the segmented-sieve prime engine of this repository
(apps primes-sequential, primes-multithread, primes-mpi).

The Rust u64 arithmetic is modelled on `Nat`.  The expression
`(limit as f64).sqrt() as u64` is modelled by the floor integer square
root `isqrt`: for `limit < 2^52` the f64 computation is exact, which
covers the input scale documented by the design (limits up to ~10^10).
Where machine-level overflow or index-bounds behaviour is itself the
property under study, separate `..._checked` models track every u64
operation with an explicit `2^64` bound and return `none` where the
Rust program panics (debug semantics; the comments note where release
semantics fails differently but still fails).
-/

/-- Floor integer square root, modelling `(limit as f64).sqrt() as u64`.
Implemented by counting the `k ≤ n` with `k * k ≤ n`, so that it
evaluates inside the kernel (Lean's `Nat.sqrt` does not reduce there). -/
def isqrt (n : Nat) : Nat :=
  ((List.range (n + 1)).filter (fun k => decide (k * k ≤ n))).length - 1

/-- The marking loop `while multiple <= bound { a[multiple - offset] = false; multiple += step }`
started at `start`.  The visited values are exactly
`start, start + step, ...` while `≤ bound`, listed by `List.range'`. -/
def clearMultiples (arr : List Bool) (start step bound offset : Nat) : List Bool :=
  (List.range' start (if bound < start then 0 else (bound - start) / step + 1) step).foldl
    (fun a m => a.set (m - offset) false) arr

/-- The collection idiom
`is_prime.iter().enumerate().filter(|(_, &p)| p).map(|(idx, _)| idx)`. -/
def collectTrueIndices (arr : List Bool) : List Nat :=
  (arr.enum.filter (fun p => p.2)).map (fun p => p.1)

/-- `sieve_of_eratosthenes` from `src/apps/primes-sequential/src/main.rs`
(lines 46-86): boolean array of size `limit + 1`, indices 0 and 1 forced
false, each still-true `num` in `2..=sqrt_limit` clears its multiples
from `num * num`, and the surviving indices are collected. -/
def sieve_of_eratosthenes (limit : Nat) : List Nat :=
  if limit < 2 then []
  else
    let is_prime0 := ((List.replicate (limit + 1) true).set 0 false).set 1 false
    let sqrt_limit := isqrt limit
    let is_prime :=
      (List.range' 2 (sqrt_limit - 1)).foldl
        (fun a num => if a.getD num false then clearMultiples a (num * num) num limit 0 else a)
        is_prime0
    collectTrueIndices is_prime

/-- `simple_sieve` from `src/apps/primes-multithread/src/main.rs` (lines 44-71)
and `src/apps/primes-mpi/src/main.rs` (lines 81-108); its body is identical,
line for line, to `sieve_of_eratosthenes` in primes-sequential. -/
def simple_sieve (limit : Nat) : List Nat :=
  if limit < 2 then []
  else
    let is_prime0 := ((List.replicate (limit + 1) true).set 0 false).set 1 false
    let sqrt_limit := isqrt limit
    let is_prime :=
      (List.range' 2 (sqrt_limit - 1)).foldl
        (fun a num => if a.getD num false then clearMultiples a (num * num) num limit 0 else a)
        is_prime0
    collectTrueIndices is_prime

/-- `sieve_segment` from `src/apps/primes-multithread/src/main.rs` (lines 91-154)
and `src/apps/primes-mpi/src/main.rs` (lines 111-158); the two copies are
identical.  A local array indexed by `value - low`, values 0 and 1 cleared when
in range, every base prime with `p * p ≤ high` clears its multiples from
`max(p*p, first multiple ≥ low)`, survivors are mapped back to `low + idx`
and values `≤ 1` are filtered out. -/
def sieve_segment (low high : Nat) (base_primes : List Nat) : List Nat :=
  if low > high then []
  else
    let segment_size := high - low + 1
    let a0 := List.replicate segment_size true
    let a1 := if low = 0 ∧ 0 < segment_size then a0.set 0 false else a0
    let a2 := if low ≤ 1 ∧ 1 ≤ high then a1.set (1 - low) false else a1
    let marked := base_primes.foldl
      (fun a p =>
        if high < p * p then a
        else
          let start := if low ≤ p * p then p * p
            else if low % p = 0 then low else low + (p - low % p)
          clearMultiples a start p high low)
      a2
    ((collectTrueIndices marked).map (fun idx => low + idx)).filter (fun n => 1 < n)

/-- The per-worker ranges computed by `segmented_sieve_parallel`
(primes-multithread lines 197-223); the same formulas are used by
`run_master` (primes-mpi lines 313-322, with `n = workers + 1`) and by
`run_mpi` (primes-mpi lines 181-187, with `n = size`):
worker `i` gets `[range_start + i*segment_size, min(low + segment_size - 1, limit)]`
with `segment_size = ceil(range_size / n)`. -/
def partitionRanges (limit n : Nat) : List (Nat × Nat) :=
  let sqrt_limit := isqrt limit
  let range_start := sqrt_limit + 1
  let range_size := limit - sqrt_limit
  let segment_size := (range_size + n - 1) / n
  (List.range n).map (fun i =>
    (range_start + i * segment_size,
     min (range_start + i * segment_size + segment_size - 1) limit))

/-- `segmented_sieve_parallel` from `src/apps/primes-multithread/src/main.rs`
(lines 176-275), determinized: the per-thread result slots are written by
`results_guard[thread_id] = segment_primes` and concatenated in thread-id
order after the join, so the returned prime list does not depend on thread
scheduling.  Threads whose `seg_low` exceeds `limit` are skipped
(`continue`) and leave their slot `[]`.  The timing metrics are dropped. -/
def segmented_sieve_parallel (limit num_threads : Nat) : List Nat :=
  if limit < 2 then []
  else
    let sqrt_limit := isqrt limit
    let base_primes := simple_sieve sqrt_limit
    if limit ≤ sqrt_limit then base_primes
    else
      let range_start := sqrt_limit + 1
      let range_size := limit - sqrt_limit
      let segment_size := (range_size + num_threads - 1) / num_threads
      base_primes ++ (List.range num_threads).flatMap (fun thread_id =>
        let seg_low := range_start + thread_id * segment_size
        let seg_high := min (seg_low + segment_size - 1) limit
        if limit < seg_low then [] else sieve_segment seg_low seg_high base_primes)

/-- The `node_counts` vector assembled by `run_master`
(`src/apps/primes-mpi/src/main.rs` lines 281-377): the master's own segment
count followed by each worker's returned count in connection order.  Worker
`i` has `worker_id = i + 1` and, per `run_worker` (lines 380-422), sieves
exactly the segment the master serialized for it. -/
def run_master_node_counts (limit workers : Nat) : List Nat :=
  let sqrt_limit := isqrt limit
  let base_primes := simple_sieve sqrt_limit
  let total_nodes := workers + 1
  let range_start := sqrt_limit + 1
  let range_size := limit - sqrt_limit
  let segment_size := (range_size + total_nodes - 1) / total_nodes
  let master_low := range_start
  let master_high := min (master_low + segment_size - 1) limit
  (sieve_segment master_low master_high base_primes).length ::
    (List.range workers).map (fun i =>
      let worker_id := i + 1
      let low := range_start + worker_id * segment_size
      let high := min (low + segment_size - 1) limit
      (sieve_segment low high base_primes).length)

/-- `total_primes` computed by `run_master` (lines 366-368):
base prime count plus the sum of all node counts. -/
def run_master_total (limit workers : Nat) : Nat :=
  (simple_sieve (isqrt limit)).length + (run_master_node_counts limit workers).sum

/-- The per-rank counts gathered by `mpi_impl::run_mpi`
(`src/apps/primes-mpi/src/main.rs` lines 169-239): every rank derives its own
segment from `(rank, size)`, sieving it only when `my_low <= limit`. -/
def run_mpi_node_counts (limit size : Nat) : List Nat :=
  let sqrt_limit := isqrt limit
  let base_primes := simple_sieve sqrt_limit
  let range_start := sqrt_limit + 1
  let range_size := limit - sqrt_limit
  let segment_size := (range_size + size - 1) / size
  (List.range size).map (fun rank =>
    let my_low := range_start + rank * segment_size
    let my_high := min (my_low + segment_size - 1) limit
    if my_low ≤ limit then (sieve_segment my_low my_high base_primes).length else 0)

/-- `total_primes` computed at rank 0 by `run_mpi` (lines 225-226). -/
def run_mpi_total (limit size : Nat) : Nat :=
  (simple_sieve (isqrt limit)).length + (run_mpi_node_counts limit size).sum

/-- `u64::to_le_bytes`, as the list of the eight little-endian base-256
digits of a value `< 2^64`. -/
def toLeBytes8 (n : Nat) : List Nat :=
  [n % 256, n / 256 % 256, n / 65536 % 256, n / 16777216 % 256,
   n / 4294967296 % 256, n / 1099511627776 % 256,
   n / 281474976710656 % 256, n / 72057594037927936 % 256]

/-- `u64::from_le_bytes` on an 8-byte slice.  The `try_into().unwrap()` in
`deserialize_work` panics on a slice that is not 8 bytes long; that case is
never reached on round-trip inputs and is mapped to 0 here. -/
def fromLeBytes8 (l : List Nat) : Nat :=
  match l with
  | [b0, b1, b2, b3, b4, b5, b6, b7] =>
      b0 + b1 * 256 + b2 * 65536 + b3 * 16777216 + b4 * 4294967296 +
        b5 * 1099511627776 + b6 * 281474976710656 + b7 * 72057594037927936
  | _ => 0

/-- `tcp_impl::serialize_work` (`src/apps/primes-mpi/src/main.rs` lines
254-263): `low`, `high`, `base_primes.len() as u64`, then each base prime,
all as little-endian u64. -/
def serialize_work (low high : Nat) (base_primes : List Nat) : List Nat :=
  toLeBytes8 low ++ toLeBytes8 high ++ toLeBytes8 base_primes.length ++
    base_primes.flatMap toLeBytes8

/-- The slice `data[start..start + 8]`. -/
def slice8 (data : List Nat) (start : Nat) : List Nat :=
  (data.drop start).take 8

/-- `tcp_impl::deserialize_work` (lines 265-278): `low` from bytes 0..8,
`high` from 8..16, the count from 16..24, then `count` primes at
`24 + i * 8`. -/
def deserialize_work (data : List Nat) : Nat × Nat × List Nat :=
  let low := fromLeBytes8 (slice8 data 0)
  let high := fromLeBytes8 (slice8 data 8)
  let count := fromLeBytes8 (slice8 data 16)
  (low, high, (List.range count).map (fun i => fromLeBytes8 (slice8 data (24 + i * 8))))

/-- `run_single_node` (primes-mpi lines 436-451) sieves the full limit with
`simple_sieve`; its `total_primes` is the resulting count. -/
def run_single_node_total (limit : Nat) : Nat :=
  (simple_sieve limit).length

/-- Observable outcome of the primes-mpi `main` function. -/
inductive RunOutcome where
  | printed (total : Nat)
  | workerFinished
  | exited (code : Nat)
  deriving DecidableEq

/-- Shallow model of primes-mpi `main` (lines 483-537).  The effectful steps
are parameters carrying each step's outcome: `workerOutcome` for
`tcp_impl::run_worker`, `masterOutcome` for `tcp_impl::run_master` (an
`Except.error` covers in particular a bind or listen failure, which
`run_master` returns as `Err` at lines 296-298), and `mpiOutcome` for
`mpi_impl::run_mpi` (`none` models a build without the `mpi` feature; the
printed value of a successful rank-0 run is its total).  On a master error,
`main` prints the error and calls `std::process::exit(1)`; only an MPI error
falls through to `run_single_node`. -/
def main_model (worker tcp : Bool) (limit : Nat)
    (workerOutcome : Except String Unit)
    (masterOutcome : Except String Nat)
    (mpiOutcome : Option (Except String Nat)) : RunOutcome :=
  if worker then
    match workerOutcome with
    | .ok _ => .workerFinished
    | .error _ => .exited 1
  else if tcp then
    match masterOutcome with
    | .ok total => .printed total
    | .error _ => .exited 1
  else
    match mpiOutcome with
    | some (.ok total) => .printed total
    | some (.error _) => .printed (run_single_node_total limit)
    | none => .printed (run_single_node_total limit)

/-- Modelled from the spec: the spec states the base-prime bound and the
segment range boundary using the ceiling `⌈√N⌉` of the square root
(sections 2, 3 and the glossary), while the code computes the floor.
This definition follows the spec's words, for comparison with `isqrt`. -/
def ceilSqrt (n : Nat) : Nat :=
  if isqrt n * isqrt n = n then isqrt n else isqrt n + 1

/-- Reference predicate: the ordered list of primes in `[low, high]`. -/
def primesInRange (low high : Nat) : List Nat :=
  (List.range' low (high + 1 - low)).filter (fun k => decide (Nat.Prime k))

/-- Reference predicate: the ordered list of primes `≤ n`. -/
def primesUpTo (n : Nat) : List Nat :=
  (List.range (n + 1)).filter (fun k => decide (Nat.Prime k))

/-! ### Basic facts about the array model -/

theorem isqrt_eq_sqrt (n : Nat) : isqrt n = Nat.sqrt n := by
  have hs : Nat.sqrt n ≤ n := Nat.sqrt_le_self n
  have hsplit : List.range (n + 1)
      = List.range' 0 (Nat.sqrt n + 1) ++ List.range' (Nat.sqrt n + 1) (n - Nat.sqrt n) := by
    rw [List.range_eq_range']
    have h := List.range'_append 0 (Nat.sqrt n + 1) (n - Nat.sqrt n) 1
    have h1 : (0 : Nat) + 1 * (Nat.sqrt n + 1) = Nat.sqrt n + 1 := by omega
    have h2 : n - Nat.sqrt n + (Nat.sqrt n + 1) = n + 1 := by omega
    rw [h1, h2] at h
    exact h.symm
  have hfil1 : (List.range' 0 (Nat.sqrt n + 1)).filter (fun k => decide (k * k ≤ n))
      = List.range' 0 (Nat.sqrt n + 1) := by
    rw [List.filter_eq_self]
    intro k hk
    have hk' : k ≤ Nat.sqrt n := by
      have := List.mem_range'_1.mp hk
      omega
    simpa using Nat.le_sqrt.mp hk'
  have hfil2 : (List.range' (Nat.sqrt n + 1) (n - Nat.sqrt n)).filter
      (fun k => decide (k * k ≤ n)) = [] := by
    rw [List.filter_eq_nil_iff]
    intro k hk
    have hk' : Nat.sqrt n + 1 ≤ k := (List.mem_range'_1.mp hk).1
    have : n < k * k := Nat.sqrt_lt.mp (by omega)
    simpa using this
  rw [isqrt, hsplit, List.filter_append, hfil1, hfil2]
  simp

theorem getD_set_false (arr : List Bool) (i k : Nat) :
    (arr.set i false).getD k false = (arr.getD k false && !(decide (i = k))) := by
  by_cases h : i = k
  · subst h
    by_cases hl : i < arr.length
    · simp [List.getD_eq_getElem?_getD, List.getElem?_set_self hl]
    · have h1 : (arr.set i false)[i]? = none := by
        rw [List.getElem?_eq_none_iff, List.length_set]; omega
      have h2 : arr[i]? = none := by
        rw [List.getElem?_eq_none_iff]; omega
      simp [List.getD_eq_getElem?_getD, h1, h2]
  · simp [List.getD_eq_getElem?_getD, List.getElem?_set_ne h, h]

theorem length_clearFold (L : List Nat) (offset : Nat) (arr : List Bool) :
    (L.foldl (fun a m => a.set (m - offset) false) arr).length = arr.length := by
  induction L generalizing arr with
  | nil => rfl
  | cons m t ih => rw [List.foldl_cons, ih, List.length_set]

theorem getD_clearFold (L : List Nat) (offset : Nat) (arr : List Bool) (k : Nat) :
    (L.foldl (fun a m => a.set (m - offset) false) arr).getD k false
      = (arr.getD k false && !(L.any (fun m => decide (m - offset = k)))) := by
  induction L generalizing arr with
  | nil => simp
  | cons m t ih =>
    rw [List.foldl_cons, ih, getD_set_false]
    simp only [List.any_cons, Bool.not_or, Bool.and_assoc]

theorem mem_clearList {start step bound m : Nat} (hstep : 1 ≤ step) :
    (m ∈ List.range' start (if bound < start then 0 else (bound - start) / step + 1) step)
      ↔ start ≤ m ∧ m ≤ bound ∧ step ∣ (m - start) := by
  rw [List.mem_range']
  constructor
  · rintro ⟨i, hi, rfl⟩
    by_cases hb : bound < start
    · simp [hb] at hi
    · simp only [if_neg hb] at hi
      have h1 : step * i ≤ bound - start := by
        have hi' : i ≤ (bound - start) / step := by omega
        calc step * i ≤ step * ((bound - start) / step) := Nat.mul_le_mul_left _ hi'
          _ ≤ bound - start := by
              rw [Nat.mul_comm]
              exact Nat.div_mul_le_self _ _
      have hcomm : step * i = i * step := Nat.mul_comm _ _
      exact ⟨by omega, by omega, ⟨i, by omega⟩⟩
  · rintro ⟨h1, h2, i, hi⟩
    have hb : ¬ bound < start := by omega
    refine ⟨i, ?_, by omega⟩
    rw [if_neg hb]
    have h3 : i ≤ (bound - start) / step :=
      (Nat.le_div_iff_mul_le hstep).mpr (by
        have hcomm : step * i = i * step := Nat.mul_comm _ _
        omega)
    omega

theorem clearMultiples_length (arr : List Bool) (start step bound offset : Nat) :
    (clearMultiples arr start step bound offset).length = arr.length :=
  length_clearFold _ _ _

theorem clearMultiples_getD_eq_false (arr : List Bool) (start step bound offset k : Nat)
    (hstep : 1 ≤ step) :
    ((clearMultiples arr start step bound offset).getD k false = false
      ↔ (arr.getD k false = false
          ∨ ∃ m, start ≤ m ∧ m ≤ bound ∧ step ∣ (m - start) ∧ m - offset = k)) := by
  rw [clearMultiples, getD_clearFold]
  rcases h : arr.getD k false with _ | _
  · simp
  · have hx : ∀ x : Bool, ((true && !x) = false ↔ x = true) := by decide
    rw [hx, List.any_eq_true]
    constructor
    · rintro ⟨m, hm, hmk⟩
      rcases (mem_clearList hstep).mp hm with ⟨ha, hb, hc⟩
      exact Or.inr ⟨m, ha, hb, hc, of_decide_eq_true hmk⟩
    · rintro (hfalse | ⟨m, ha, hb, hc, hd⟩)
      · exact absurd hfalse (by simp)
      · exact ⟨m, (mem_clearList hstep).mpr ⟨ha, hb, hc⟩, decide_eq_true hd⟩

theorem getD_replicate_true (n k : Nat) :
    (List.replicate n true).getD k false = decide (k < n) := by
  rcases Nat.lt_or_ge k n with h | h
  · simp [List.getD_eq_getElem?_getD, List.getElem?_replicate, h]
  · simp [List.getD_eq_getElem?_getD, List.getElem?_replicate, Nat.not_lt.mpr h, Nat.not_lt_of_ge h]

theorem enumFrom_collect (arr : List Bool) :
    ∀ off, ((List.enumFrom off arr).filter (fun p => p.2)).map (fun p => p.1)
      = (List.range' off arr.length).filter (fun k => arr.getD (k - off) false) := by
  induction arr with
  | nil => intro off; rfl
  | cons b t ih =>
    intro off
    rw [List.enumFrom_cons]
    have hlen : (b :: t).length = t.length + 1 := rfl
    rw [hlen, List.range'_succ, List.filter_cons, List.filter_cons]
    have hhead : (fun k => (b :: t).getD (k - off) false) off = b := by
      simp
    have htail : (List.range' (off + 1) t.length).filter
        (fun k => (b :: t).getD (k - off) false)
        = (List.range' (off + 1) t.length).filter (fun k => t.getD (k - (off + 1)) false) := by
      apply List.filter_congr
      intro k hk
      have hk' : off + 1 ≤ k := (List.mem_range'_1.mp hk).1
      have : k - off = (k - (off + 1)) + 1 := by omega
      rw [this, List.getD_cons_succ]
    rcases b with _ | _
    · simp only [hhead]
      rw [htail, ← ih (off + 1)]
      simp
    · simp only [hhead]
      rw [htail, ← ih (off + 1)]
      simp

theorem collectTrueIndices_eq (arr : List Bool) :
    collectTrueIndices arr = (List.range arr.length).filter (fun k => arr.getD k false) := by
  have h := enumFrom_collect arr 0
  simp only [Nat.sub_zero] at h
  rw [collectTrueIndices, List.enum, h, List.range_eq_range']

/-! ### Correctness of the full sieve -/

/-- The marking phase of `sieve_of_eratosthenes`/`simple_sieve` after the
first `cnt` iterations of the outer loop (`num` running over `2, 3, ...`). -/
def sieveFold (limit cnt : Nat) : List Bool :=
  (List.range' 2 cnt).foldl
    (fun a num => if a.getD num false then clearMultiples a (num * num) num limit 0 else a)
    (((List.replicate (limit + 1) true).set 0 false).set 1 false)

theorem sieveFold_spec (limit : Nat) (h2 : 2 ≤ limit) :
    ∀ cnt, cnt + 1 ≤ isqrt limit →
      (sieveFold limit cnt).length = limit + 1 ∧
      ∀ k, k ≤ limit →
        ((sieveFold limit cnt).getD k false = false ↔
          k ≤ 1 ∨ ∃ d, 2 ≤ d ∧ d ≤ cnt + 1 ∧ d ∣ k ∧ d * d ≤ k) := by
  have hsqlt : isqrt limit < limit := by
    rw [isqrt_eq_sqrt]; exact Nat.sqrt_lt_self (by omega)
  intro cnt
  induction cnt with
  | zero =>
    intro _
    constructor
    · simp [sieveFold, List.length_set, List.length_replicate]
    · intro k hk
      rw [sieveFold]
      simp only [List.range'_zero, List.foldl_nil]
      rw [getD_set_false, getD_set_false, getD_replicate_true]
      constructor
      · intro h
        rcases Nat.lt_or_ge k 2 with hk2 | hk2
        · exact Or.inl (by omega)
        · exfalso
          have h1 : ¬ ((0 : Nat) = k) := by omega
          have h2' : ¬ ((1 : Nat) = k) := by omega
          have h3 : k < limit + 1 := by omega
          simp [h1, h2', h3] at h
      · rintro (hk1 | ⟨d, hd2, hd1, _, _⟩)
        · rcases Nat.le_one_iff_eq_zero_or_eq_one.mp hk1 with rfl | rfl <;> simp
        · omega
  | succ cnt ih =>
    intro hcnt
    obtain ⟨ihlen, ihspec⟩ := ih (by omega)
    have hsplit : sieveFold limit (cnt + 1)
        = if (sieveFold limit cnt).getD (2 + cnt) false = true
            then clearMultiples (sieveFold limit cnt) ((2 + cnt) * (2 + cnt)) (2 + cnt) limit 0
            else sieveFold limit cnt := by
      rw [sieveFold, sieveFold, List.range'_concat, List.foldl_append, List.foldl_cons,
        List.foldl_nil]
      norm_num
    have hnum2 : 2 ≤ 2 + cnt := by omega
    have hnumlim : 2 + cnt ≤ limit := by omega
    rw [hsplit]
    by_cases hb : (sieveFold limit cnt).getD (2 + cnt) false = true
    · rw [if_pos hb]
      constructor
      · rw [clearMultiples_length, ihlen]
      · intro k hk
        rw [clearMultiples_getD_eq_false _ _ _ _ _ _ (by omega)]
        rw [ihspec k hk]
        constructor
        · rintro ((hk1 | ⟨d, hd2, hdb, hdvd, hdsq⟩) | ⟨m, hm1, hm2, hm3, hm4⟩)
          · exact Or.inl hk1
          · exact Or.inr ⟨d, hd2, by omega, hdvd, hdsq⟩
          · -- m = k, num ∣ (k - num²), num² ≤ k: witness d = 2 + cnt
            have hmk : m = k := by omega
            subst hmk
            refine Or.inr ⟨2 + cnt, hnum2, by omega, ?_, by omega⟩
            have hsq : (2 + cnt) ∣ (2 + cnt) * (2 + cnt) := Dvd.intro _ rfl
            have : m = (m - (2 + cnt) * (2 + cnt)) + (2 + cnt) * (2 + cnt) := by omega
            rw [this]
            exact Nat.dvd_add hm3 hsq
        · rintro (hk1 | ⟨d, hd2, hdb, hdvd, hdsq⟩)
          · exact Or.inl (Or.inl hk1)
          · rcases Nat.lt_or_ge d (cnt + 2) with hdlt | hdge
            · exact Or.inl (Or.inr ⟨d, hd2, by omega, hdvd, hdsq⟩)
            · -- d = 2 + cnt exactly
              have hde : d = 2 + cnt := by omega
              subst hde
              refine Or.inr ⟨k, hdsq, hk, ?_, by omega⟩
              exact Nat.dvd_sub' hdvd (Dvd.intro _ rfl)
    · rw [if_neg hb]
      have hbf : (sieveFold limit cnt).getD (2 + cnt) false = false := by
        rcases hx : (sieveFold limit cnt).getD (2 + cnt) false with _ | _
        · rfl
        · exact absurd hx hb
      -- 2 + cnt itself has a smaller witness divisor
      have hwit := (ihspec (2 + cnt) hnumlim).mp hbf
      rcases hwit with hk1 | ⟨d0, hd02, hd0b, hd0dvd, hd0sq⟩
      · omega
      · have hd0lt : d0 < 2 + cnt := by omega
        have hnotprime : ¬ Nat.Prime (2 + cnt) := by
          intro hp
          rcases hp.eq_one_or_self_of_dvd d0 hd0dvd with rfl | rfl
          · omega
          · omega
        have hp := Nat.minFac_prime (show (2 + cnt) ≠ 1 by omega)
        have hple : (2 + cnt).minFac ≤ d0 := Nat.minFac_le_of_dvd hd02 hd0dvd
        have hpsq : (2 + cnt).minFac * (2 + cnt).minFac ≤ 2 + cnt := by
          have := Nat.minFac_sq_le_self (show 0 < 2 + cnt by omega) hnotprime
          rwa [pow_two] at this
        constructor
        · exact ihlen
        · intro k hk
          rw [ihspec k hk]
          constructor
          · rintro (hk1 | ⟨d, hd2, hdb, hdvd, hdsq⟩)
            · exact Or.inl hk1
            · exact Or.inr ⟨d, hd2, by omega, hdvd, hdsq⟩
          · rintro (hk1 | ⟨d, hd2, hdb, hdvd, hdsq⟩)
            · exact Or.inl hk1
            · rcases Nat.lt_or_ge d (cnt + 2) with hdlt | hdge
              · exact Or.inr ⟨d, hd2, by omega, hdvd, hdsq⟩
              · have hde : d = 2 + cnt := by omega
                subst hde
                -- replace the witness d by minFac d ≤ cnt + 1
                refine Or.inr ⟨(2 + cnt).minFac, hp.two_le, by omega, ?_, ?_⟩
                · exact (Nat.minFac_dvd _).trans hdvd
                · -- minFac² ≤ 2 + cnt ≤ k
                  have hdk : 2 + cnt ≤ k := by
                    have h1 : 2 + cnt ≤ (2 + cnt) * (2 + cnt) :=
                      Nat.le_mul_of_pos_left _ (by omega)
                    omega
                  omega

theorem sieveFold_final (limit : Nat) (h2 : 2 ≤ limit) :
    ∀ k, k ≤ limit →
      (sieveFold limit (isqrt limit - 1)).getD k false = decide (Nat.Prime k) := by
  have hs1 : 1 ≤ isqrt limit := by
    rw [isqrt_eq_sqrt]
    exact Nat.le_sqrt.mpr (by omega)
  obtain ⟨hlen, hspec⟩ := sieveFold_spec limit h2 (isqrt limit - 1) (by omega)
  intro k hk
  have h := hspec k hk
  rw [Nat.sub_add_cancel hs1] at h
  have hiff : (k ≤ 1 ∨ ∃ d, 2 ≤ d ∧ d ≤ isqrt limit ∧ d ∣ k ∧ d * d ≤ k)
      ↔ ¬ Nat.Prime k := by
    constructor
    · rintro (hk1 | ⟨d, hd2, hds, hdvd, hdsq⟩)
      · intro hp; have := hp.two_le; omega
      · intro hp
        rcases hp.eq_one_or_self_of_dvd d hdvd with rfl | rfl
        · omega
        · have := hp.two_le
          nlinarith
    · intro hnp
      rcases Nat.lt_or_ge k 2 with hk2 | hk2
      · exact Or.inl (by omega)
      · right
        have hk1 : k ≠ 1 := by omega
        have hp := Nat.minFac_prime hk1
        have hsq : k.minFac * k.minFac ≤ k := by
          have := Nat.minFac_sq_le_self (show 0 < k by omega) hnp
          rwa [pow_two] at this
        refine ⟨k.minFac, hp.two_le, ?_, Nat.minFac_dvd k, hsq⟩
        rw [isqrt_eq_sqrt]
        exact Nat.le_sqrt.mpr (by omega)
  by_cases hp : Nat.Prime k
  · have hnot : ¬ ((sieveFold limit (isqrt limit - 1)).getD k false = false) := by
      intro hf
      exact (hiff.mp (h.mp hf)) hp
    rcases hgd : (sieveFold limit (isqrt limit - 1)).getD k false with _ | _
    · exact absurd hgd hnot
    · simp [hp]
  · have hf : (sieveFold limit (isqrt limit - 1)).getD k false = false :=
      h.mpr (hiff.mpr hp)
    rw [hf]
    simp [hp]

theorem sieve_of_eratosthenes_eq_primesUpTo (limit : Nat) :
    sieve_of_eratosthenes limit = primesUpTo limit := by
  by_cases h2 : limit < 2
  · interval_cases limit
    · decide
    · decide
  · push_neg at h2
    have hfold : sieve_of_eratosthenes limit
        = collectTrueIndices (sieveFold limit (isqrt limit - 1)) := by
      simp only [sieve_of_eratosthenes, if_neg (by omega : ¬ limit < 2), sieveFold]
    rw [hfold, collectTrueIndices_eq]
    have hlen := (sieveFold_spec limit h2 (isqrt limit - 1)
      (by rw [isqrt_eq_sqrt]; have := Nat.le_sqrt.mpr (show 1 * 1 ≤ limit by omega); omega)).1
    rw [hlen, primesUpTo]
    apply List.filter_congr
    intro k hk
    have hk' : k ≤ limit := by have := List.mem_range.mp hk; omega
    exact sieveFold_final limit h2 k hk'

theorem simple_sieve_eq (limit : Nat) :
    simple_sieve limit = sieve_of_eratosthenes limit := rfl

theorem simple_sieve_eq_primesUpTo (limit : Nat) :
    simple_sieve limit = primesUpTo limit := by
  rw [simple_sieve_eq, sieve_of_eratosthenes_eq_primesUpTo]

/-! ### Correctness of the segment sieve -/

/-- The local segment array of `sieve_segment` before any base prime is
processed: all true, with the slots of values 0 and 1 cleared when those
values fall inside `[low, high]`. -/
def segInit (low high : Nat) : List Bool :=
  let segment_size := high - low + 1
  let a0 := List.replicate segment_size true
  let a1 := if low = 0 ∧ 0 < segment_size then a0.set 0 false else a0
  if low ≤ 1 ∧ 1 ≤ high then a1.set (1 - low) false else a1

/-- The marking phase of `sieve_segment` over the base-prime list. -/
def segFold (low high : Nat) (bps : List Nat) : List Bool :=
  bps.foldl
    (fun a p =>
      if high < p * p then a
      else
        let start := if low ≤ p * p then p * p
          else if low % p = 0 then low else low + (p - low % p)
        clearMultiples a start p high low)
    (segInit low high)

theorem segInit_length (low high : Nat) : (segInit low high).length = high - low + 1 := by
  rw [segInit]
  split <;> split <;> simp [List.length_set, List.length_replicate]

theorem segFold_length (low high : Nat) (bps : List Nat) :
    (segFold low high bps).length = high - low + 1 := by
  induction bps using List.reverseRecOn with
  | nil => rw [segFold, List.foldl_nil, segInit_length]
  | append_singleton pre p ih =>
    rw [segFold, List.foldl_append, List.foldl_cons, List.foldl_nil]
    rw [segFold] at ih
    by_cases hs : high < p * p
    · simpa [hs] using ih
    · simpa [hs, clearMultiples_length] using ih

theorem segInit_getD (low high k : Nat) (hk1 : low ≤ k) (hk2 : k ≤ high) :
    ((segInit low high).getD (k - low) false = false ↔ k ≤ 1) := by
  have hsize : k - low < high - low + 1 := by omega
  simp only [segInit]
  by_cases hc2 : low ≤ 1 ∧ 1 ≤ high
  · rw [if_pos hc2]
    by_cases hc1 : low = 0 ∧ 0 < high - low + 1
    · rw [if_pos hc1, getD_set_false, getD_set_false, getD_replicate_true]
      constructor
      · intro h
        by_contra hk
        rcases hc1 with ⟨hl0, -⟩
        subst hl0
        simp [hsize] at h
        omega
      · intro h
        rcases hc1 with ⟨hl0, -⟩
        subst hl0
        have hk01 : k = 0 ∨ k = 1 := by omega
        rcases hk01 with rfl | rfl <;> simp
    · rw [if_neg hc1, getD_set_false, getD_replicate_true]
      have hlow1 : low = 1 := by omega
      subst hlow1
      constructor
      · intro h
        by_contra hk
        simp [hsize] at h
        omega
      · intro h
        have hk1' : k = 1 := by omega
        subst hk1'
        simp
  · rw [if_neg hc2]
    rcases Nat.lt_or_ge high 1 with hh | hh
    · have hk0 : k = 0 := by omega
      have hl0 : low = 0 := by omega
      subst hk0; subst hl0
      have hc1 : (0 : Nat) = 0 ∧ 0 < high - 0 + 1 := ⟨rfl, by omega⟩
      rw [if_pos hc1, getD_set_false, getD_replicate_true]
      simp
    · have hl2 : 2 ≤ low := by omega
      have hc1 : ¬ (low = 0 ∧ 0 < high - low + 1) := by omega
      rw [if_neg hc1, getD_replicate_true]
      constructor
      · intro h
        simp [hsize] at h
      · intro h; omega

theorem segFold_getD (low high : Nat) :
    ∀ bps : List Nat, (∀ p ∈ bps, 2 ≤ p) →
      ∀ k, low ≤ k → k ≤ high →
        ((segFold low high bps).getD (k - low) false = false ↔
          k ≤ 1 ∨ ∃ p ∈ bps, p ∣ k ∧ p * p ≤ k) := by
  intro bps
  induction bps using List.reverseRecOn with
  | nil =>
    intro _ k hk1 hk2
    rw [segFold, List.foldl_nil, segInit_getD low high k hk1 hk2]
    simp
  | append_singleton pre p ih =>
    intro hp2 k hk1 hk2
    have hp2' : ∀ q ∈ pre, 2 ≤ q := fun q hq => hp2 q (by simp [hq])
    have hpp : 2 ≤ p := hp2 p (by simp)
    have hsplit : segFold low high (pre ++ [p])
        = if high < p * p then segFold low high pre
          else clearMultiples (segFold low high pre)
            (if low ≤ p * p then p * p else if low % p = 0 then low else low + (p - low % p))
            p high low := by
      rw [segFold, segFold, List.foldl_append, List.foldl_cons, List.foldl_nil]
    have ihk := ih hp2' k hk1 hk2
    rw [hsplit]
    by_cases hskip : high < p * p
    · rw [if_pos hskip, ihk]
      constructor
      · rintro (hk | ⟨q, hqm, hqd, hqs⟩)
        · exact Or.inl hk
        · exact Or.inr ⟨q, by simp [hqm], hqd, hqs⟩
      · rintro (hk | ⟨q, hqm, hqd, hqs⟩)
        · exact Or.inl hk
        · rcases List.mem_append.mp hqm with hqm' | hqm'
          · exact Or.inr ⟨q, hqm', hqd, hqs⟩
          · have : q = p := by simpa using hqm'
            subst this
            omega
    · rw [if_neg hskip]
      set start := if low ≤ p * p then p * p
        else if low % p = 0 then low else low + (p - low % p) with hstartdef
      have hstart_ge : low ≤ start := by
        rw [hstartdef]
        by_cases h1 : low ≤ p * p
        · rw [if_pos h1]; exact h1
        · rw [if_neg h1]
          by_cases h2 : low % p = 0
          · rw [if_pos h2]
          · rw [if_neg h2]; omega
      have hstart_sq : p * p ≤ start := by
        rw [hstartdef]
        by_cases h1 : low ≤ p * p
        · rw [if_pos h1]
        · rw [if_neg h1]
          by_cases h2 : low % p = 0
          · rw [if_pos h2]; omega
          · rw [if_neg h2]; omega
      have hstart_dvd : p ∣ start := by
        rw [hstartdef]
        by_cases h1 : low ≤ p * p
        · rw [if_pos h1]; exact Dvd.intro _ rfl
        · rw [if_neg h1]
          by_cases h2 : low % p = 0
          · rw [if_pos h2]; exact Nat.dvd_of_mod_eq_zero h2
          · rw [if_neg h2]
            refine ⟨low / p + 1, ?_⟩
            have hdm := Nat.div_add_mod low p
            have hmlt : low % p < p := Nat.mod_lt _ (by omega)
            have hmul : p * (low / p + 1) = p * (low / p) + p := by ring
            omega
      have hchar : (start ≤ k ∧ p ∣ (k - start)) ↔ (p ∣ k ∧ p * p ≤ k) := by
        constructor
        · rintro ⟨hsk, hdv⟩
          constructor
          · have hksplit : k = (k - start) + start := by omega
            rw [hksplit]
            exact Nat.dvd_add hdv hstart_dvd
          · omega
        · rintro ⟨hdk, hsqk⟩
          have hsk : start ≤ k := by
            rw [hstartdef]
            by_cases h1 : low ≤ p * p
            · rw [if_pos h1]; exact hsqk
            · rw [if_neg h1]
              by_cases h2 : low % p = 0
              · rw [if_pos h2]; exact hk1
              · rw [if_neg h2]
                rcases hdk with ⟨t, ht⟩
                have hdm := Nat.div_add_mod low p
                have hmlt : low % p < p := Nat.mod_lt _ (by omega)
                have htgt : low / p < t := by
                  by_contra hle
                  push_neg at hle
                  have h3 : p * t ≤ p * (low / p) := Nat.mul_le_mul_left _ hle
                  omega
                have h4 : p * (low / p + 1) ≤ p * t := Nat.mul_le_mul_left _ htgt
                have hmul : p * (low / p + 1) = p * (low / p) + p := by ring
                omega
          exact ⟨hsk, Nat.dvd_sub' hdk hstart_dvd⟩
      rw [clearMultiples_getD_eq_false _ _ _ _ _ _ (by omega : 1 ≤ p), ihk]
      constructor
      · rintro ((hk | ⟨q, hqm, hqd, hqs⟩) | ⟨m, hm1, hm2, hm3, hm4⟩)
        · exact Or.inl hk
        · exact Or.inr ⟨q, by simp [hqm], hqd, hqs⟩
        · have hmk : m = k := by omega
          subst hmk
          have hch := hchar.mp ⟨hm1, hm3⟩
          exact Or.inr ⟨p, by simp, hch.1, hch.2⟩
      · rintro (hk | ⟨q, hqm, hqd, hqs⟩)
        · exact Or.inl (Or.inl hk)
        · rcases List.mem_append.mp hqm with hqm' | hqm'
          · exact Or.inl (Or.inr ⟨q, hqm', hqd, hqs⟩)
          · have hq : q = p := by simpa using hqm'
            subst hq
            obtain ⟨hsk, hdv⟩ := hchar.mpr ⟨hqd, hqs⟩
            exact Or.inr ⟨k, hsk, hk2, hdv, rfl⟩

theorem filter_map_shift (f : Nat → Nat) (p q : Nat → Bool) (l : List Nat)
    (h : ∀ x ∈ l, p x = q (f x)) :
    (l.filter p).map f = (l.map f).filter q := by
  induction l with
  | nil => rfl
  | cons a t ih =>
    have ha := h a (by simp)
    have ht : ∀ x ∈ t, p x = q (f x) := fun x hx => h x (by simp [hx])
    rw [List.filter_cons, List.map_cons, List.filter_cons, ← ha]
    rcases hp : p a with _ | _
    · simp [ih ht]
    · simp [ih ht]

theorem sieve_segment_of_gt (low high : Nat) (bps : List Nat) (h : high < low) :
    sieve_segment low high bps = [] := by
  rw [sieve_segment, if_pos]
  exact h

theorem primesInRange_of_gt (low high : Nat) (h : high < low) :
    primesInRange low high = [] := by
  rw [primesInRange]
  have h0 : high + 1 - low = 0 := by omega
  rw [h0]
  rfl

theorem sieve_segment_eq_primesInRange (low high : Nat) (bps : List Nat)
    (hlh : low ≤ high) (hp2 : ∀ p ∈ bps, 2 ≤ p)
    (hcomp : ∀ p, Nat.Prime p → p * p ≤ high → p ∈ bps) :
    sieve_segment low high bps = primesInRange low high := by
  have hseg : sieve_segment low high bps
      = ((collectTrueIndices (segFold low high bps)).map (fun idx => low + idx)).filter
          (fun n => 1 < n) := by
    simp only [sieve_segment, if_neg (by omega : ¬ low > high), segFold, segInit]
  rw [hseg, collectTrueIndices_eq, segFold_length]
  have hmapfil : ((List.range (high - low + 1)).filter
        (fun i => (segFold low high bps).getD i false)).map (fun idx => low + idx)
      = ((List.range (high - low + 1)).map (fun idx => low + idx)).filter
        (fun k => (segFold low high bps).getD (k - low) false) := by
    apply filter_map_shift
    intro x hx
    have hx' : low + x - low = x := by omega
    rw [hx']
  rw [hmapfil]
  have hrange : (List.range (high - low + 1)).map (fun idx => low + idx)
      = List.range' low (high - low + 1) := by
    rw [List.range'_eq_map_range]
  rw [hrange, List.filter_filter, primesInRange]
  have hn : high + 1 - low = high - low + 1 := by omega
  rw [hn]
  apply List.filter_congr
  intro k hk
  have hk1 : low ≤ k := (List.mem_range'_1.mp hk).1
  have hk2 : k ≤ high := by have := (List.mem_range'_1.mp hk).2; omega
  have hgd := segFold_getD low high bps hp2 k hk1 hk2
  by_cases hp : Nat.Prime k
  · have h2k : 2 ≤ k := hp.two_le
    have hgtrue : (segFold low high bps).getD (k - low) false = true := by
      rcases hx : (segFold low high bps).getD (k - low) false with _ | _
      · exfalso
        rcases hgd.mp hx with hk1' | ⟨p, hpmem, hpdvd, hpsq⟩
        · omega
        · have hp2' : 2 ≤ p := hp2 p hpmem
          rcases hp.eq_one_or_self_of_dvd p hpdvd with rfl | rfl
          · omega
          · nlinarith
      · rfl
    simp only [List.getD_eq_getElem?_getD] at hgtrue
    simp [hgtrue, hp, h2k]
    omega
  · by_cases h2k : 2 ≤ k
    · have hgfalse : (segFold low high bps).getD (k - low) false = false := by
        apply hgd.mpr
        right
        have hk1' : k ≠ 1 := by omega
        have hpf := Nat.minFac_prime hk1'
        have hsq : k.minFac * k.minFac ≤ k := by
          have := Nat.minFac_sq_le_self (show 0 < k by omega) hp
          rwa [pow_two] at this
        exact ⟨k.minFac, hcomp _ hpf (by omega), Nat.minFac_dvd k, hsq⟩
      simp only [List.getD_eq_getElem?_getD] at hgfalse
      simp [hgfalse, hp]
    · have hk1' : ¬ 1 < k := by omega
      simp [hk1', hp]

/-! ### The partition covers the range, and the segmented sieve equals the full sieve -/

theorem ceil_div_ge (size n : Nat) (hn : 1 ≤ n) : size ≤ n * ((size + n - 1) / n) := by
  have hdm := Nat.div_add_mod (size + n - 1) n
  have hmlt : (size + n - 1) % n < n := Nat.mod_lt _ (by omega)
  omega

theorem ceil_div_pos (size n : Nat) (hn : 1 ≤ n) (hsz : 1 ≤ size) :
    1 ≤ (size + n - 1) / n :=
  (Nat.one_le_div_iff (by omega)).mpr (by omega)

theorem primesInRange_split (a L seg : Nat) (hseg : 1 ≤ seg) :
    primesInRange a L
      = primesInRange a (min (a + seg - 1) L) ++ primesInRange (a + seg) L := by
  by_cases hLa : L + 1 ≤ a
  · rw [primesInRange_of_gt _ _ (by omega), primesInRange_of_gt _ _ (by omega),
      primesInRange_of_gt _ _ (by omega)]
    rfl
  · push_neg at hLa
    by_cases hcap : L ≤ a + seg - 1
    · have hmin : min (a + seg - 1) L = L := by omega
      rw [hmin, primesInRange_of_gt (a + seg) L (by omega)]
      simp
    · have hmin : min (a + seg - 1) L = a + seg - 1 := by omega
      rw [hmin, primesInRange, primesInRange, primesInRange]
      have hsplit : List.range' a (L + 1 - a)
          = List.range' a seg ++ List.range' (a + seg) (L + 1 - (a + seg)) := by
        have h := List.range'_append a seg (L + 1 - (a + seg)) 1
        rw [one_mul] at h
        have h2 : L + 1 - (a + seg) + seg = L + 1 - a := by omega
        rw [h2] at h
        exact h.symm
      have h1 : a + seg - 1 + 1 - a = seg := by omega
      rw [h1, hsplit, List.filter_append]

theorem primesInRange_chunks (seg : Nat) (hseg : 1 ≤ seg) :
    ∀ (n : Nat) (a L : Nat), L + 1 ≤ a + n * seg →
      (List.range n).flatMap
          (fun i => primesInRange (a + i * seg) (min (a + i * seg + seg - 1) L))
        = primesInRange a L := by
  intro n
  induction n with
  | zero =>
    intro a L hcov
    simp only [Nat.zero_mul, Nat.add_zero] at hcov
    rw [List.range_zero, List.flatMap_nil, primesInRange_of_gt _ _ (by omega)]
  | succ n ih =>
    intro a L hcov
    rw [List.range_succ_eq_map, List.flatMap_cons, List.flatMap_map]
    have hf0 : primesInRange (a + 0 * seg) (min (a + 0 * seg + seg - 1) L)
        = primesInRange a (min (a + seg - 1) L) := by norm_num
    have hfs : ((List.range n).flatMap fun i =>
          primesInRange (a + Nat.succ i * seg) (min (a + Nat.succ i * seg + seg - 1) L))
        = ((List.range n).flatMap fun i =>
          primesInRange (a + seg + i * seg) (min (a + seg + i * seg + seg - 1) L)) := by
      congr 1
      funext i
      have harith : a + Nat.succ i * seg = a + seg + i * seg := by
        rw [Nat.succ_mul]; omega
      rw [harith]
    rw [hf0, hfs, ih (a + seg) L (by rw [Nat.succ_mul] at hcov; omega)]
    exact (primesInRange_split a L seg hseg).symm

theorem segmented_covers (limit n : Nat) (hn : 1 ≤ n) :
    simple_sieve (isqrt limit)
      ++ (List.range n).flatMap (fun i =>
          sieve_segment (isqrt limit + 1 + i * ((limit - isqrt limit + n - 1) / n))
            (min (isqrt limit + 1 + i * ((limit - isqrt limit + n - 1) / n)
                + (limit - isqrt limit + n - 1) / n - 1) limit)
            (simple_sieve (isqrt limit)))
      = primesUpTo limit := by
  obtain ⟨s, hs⟩ : ∃ s, isqrt limit = s := ⟨_, rfl⟩
  rw [hs]
  obtain ⟨seg, hsg⟩ : ∃ g, (limit - s + n - 1) / n = g := ⟨_, rfl⟩
  rw [hsg]
  by_cases hlim : limit < 2
  · have hsl : s = limit := by
      rw [← hs, isqrt_eq_sqrt]
      interval_cases limit
      · simp
      · simp
    have hseg0 : seg = 0 := by
      rw [← hsg, hsl]
      exact Nat.div_eq_of_lt (by omega)
    have hbase : simple_sieve s = [] := by
      rw [simple_sieve, if_pos (by omega : s < 2)]
    have hflat : (List.range n).flatMap (fun i =>
        sieve_segment (s + 1 + i * seg) (min (s + 1 + i * seg + seg - 1) limit)
          (simple_sieve s)) = [] := by
      apply List.eq_nil_iff_forall_not_mem.mpr
      intro x hx
      rcases List.mem_flatMap.mp hx with ⟨i, hi, hxi⟩
      have hi0 : i * seg = 0 := by rw [hseg0, Nat.mul_zero]
      rw [sieve_segment_of_gt _ _ _ (by omega)] at hxi
      exact absurd hxi (List.not_mem_nil x)
    rw [hflat, hbase]
    have hpu : primesUpTo limit = [] := by
      rcases (by omega : limit = 0 ∨ limit = 1) with h | h <;> rw [h] <;> decide
    rw [hpu]
    rfl
  · push_neg at hlim
    have hslt : s < limit := by
      rw [← hs, isqrt_eq_sqrt]
      exact Nat.sqrt_lt_self (by omega)
    have hsle : s ≤ limit := by omega
    have hseg1 : 1 ≤ seg := by
      rw [← hsg]
      exact ceil_div_pos _ _ hn (by omega)
    have hcov : limit + 1 ≤ (s + 1) + n * seg := by
      have hge := ceil_div_ge (limit - s) n hn
      rw [hsg] at hge
      omega
    have hsplit : primesUpTo limit = primesUpTo s ++ primesInRange (s + 1) limit := by
      rw [primesUpTo, primesUpTo, primesInRange]
      have h3 : limit + 1 - (s + 1) = limit - s := by omega
      rw [h3]
      have h := List.range'_append 0 (s + 1) (limit - s) 1
      rw [one_mul, Nat.zero_add] at h
      have h2 : limit - s + (s + 1) = limit + 1 := by omega
      rw [h2] at h
      rw [List.range_eq_range', List.range_eq_range', ← h, List.filter_append]
    have hbody : ∀ i : Nat,
        sieve_segment (s + 1 + i * seg) (min (s + 1 + i * seg + seg - 1) limit)
            (simple_sieve s)
          = primesInRange (s + 1 + i * seg) (min (s + 1 + i * seg + seg - 1) limit) := by
      intro i
      by_cases hlo : s + 1 + i * seg ≤ limit
      · apply sieve_segment_eq_primesInRange
        · omega
        · intro p hp
          rw [simple_sieve_eq_primesUpTo, primesUpTo] at hp
          have hmf := List.mem_filter.mp hp
          exact (of_decide_eq_true hmf.2).two_le
        · intro p hpp hpsq
          rw [simple_sieve_eq_primesUpTo, primesUpTo]
          apply List.mem_filter.mpr
          constructor
          · apply List.mem_range.mpr
            have hple : p * p ≤ limit := by omega
            have hps : p ≤ Nat.sqrt limit := Nat.le_sqrt.mpr hple
            have hss : s = Nat.sqrt limit := by rw [← hs, isqrt_eq_sqrt]
            omega
          · simpa using hpp
      · push_neg at hlo
        rw [sieve_segment_of_gt _ _ _ (by omega), primesInRange_of_gt _ _ (by omega)]
    have hflat : ((List.range n).flatMap (fun i =>
        sieve_segment (s + 1 + i * seg) (min (s + 1 + i * seg + seg - 1) limit)
          (simple_sieve s)))
        = ((List.range n).flatMap (fun i =>
          primesInRange (s + 1 + i * seg) (min (s + 1 + i * seg + seg - 1) limit))) := by
      congr 1
      funext i
      exact hbody i
    rw [hflat, primesInRange_chunks seg hseg1 n (s + 1) limit hcov,
      simple_sieve_eq_primesUpTo, hsplit]

theorem segmented_parallel_eq_sequential (limit T : Nat) (hT : 1 ≤ T) :
    segmented_sieve_parallel limit T = sieve_of_eratosthenes limit := by
  by_cases hlim : limit < 2
  · rw [segmented_sieve_parallel, if_pos hlim, sieve_of_eratosthenes, if_pos hlim]
  · push_neg at hlim
    have hslt : isqrt limit < limit := by
      rw [isqrt_eq_sqrt]; exact Nat.sqrt_lt_self (by omega)
    have hunfold : segmented_sieve_parallel limit T
        = simple_sieve (isqrt limit) ++ (List.range T).flatMap (fun i =>
            if limit < isqrt limit + 1 + i * ((limit - isqrt limit + T - 1) / T) then []
            else sieve_segment (isqrt limit + 1 + i * ((limit - isqrt limit + T - 1) / T))
              (min (isqrt limit + 1 + i * ((limit - isqrt limit + T - 1) / T)
                  + (limit - isqrt limit + T - 1) / T - 1) limit)
              (simple_sieve (isqrt limit))) := by
      simp only [segmented_sieve_parallel]
      rw [if_neg (by omega : ¬ limit < 2), if_neg (by omega : ¬ limit ≤ isqrt limit)]
    rw [hunfold, sieve_of_eratosthenes_eq_primesUpTo]
    have hguard : ∀ i : Nat,
        (if limit < isqrt limit + 1 + i * ((limit - isqrt limit + T - 1) / T) then []
         else sieve_segment (isqrt limit + 1 + i * ((limit - isqrt limit + T - 1) / T))
           (min (isqrt limit + 1 + i * ((limit - isqrt limit + T - 1) / T)
               + (limit - isqrt limit + T - 1) / T - 1) limit)
           (simple_sieve (isqrt limit)))
        = sieve_segment (isqrt limit + 1 + i * ((limit - isqrt limit + T - 1) / T))
            (min (isqrt limit + 1 + i * ((limit - isqrt limit + T - 1) / T)
                + (limit - isqrt limit + T - 1) / T - 1) limit)
            (simple_sieve (isqrt limit)) := by
      intro i
      by_cases hg : limit < isqrt limit + 1 + i * ((limit - isqrt limit + T - 1) / T)
      · rw [if_pos hg]
        exact (sieve_segment_of_gt _ _ _ (by omega)).symm
      · rw [if_neg hg]
    have hflat : ((List.range T).flatMap (fun i =>
        if limit < isqrt limit + 1 + i * ((limit - isqrt limit + T - 1) / T) then []
        else sieve_segment (isqrt limit + 1 + i * ((limit - isqrt limit + T - 1) / T))
          (min (isqrt limit + 1 + i * ((limit - isqrt limit + T - 1) / T)
              + (limit - isqrt limit + T - 1) / T - 1) limit)
          (simple_sieve (isqrt limit))))
        = ((List.range T).flatMap (fun i =>
          sieve_segment (isqrt limit + 1 + i * ((limit - isqrt limit + T - 1) / T))
            (min (isqrt limit + 1 + i * ((limit - isqrt limit + T - 1) / T)
                + (limit - isqrt limit + T - 1) / T - 1) limit)
            (simple_sieve (isqrt limit)))) := by
      congr 1
      funext i
      exact hguard i
    rw [hflat]
    exact segmented_covers limit T hT

theorem run_master_node_counts_eq (limit workers : Nat) :
    run_master_node_counts limit workers
      = (List.range (workers + 1)).map (fun i =>
          (sieve_segment
            (isqrt limit + 1 + i * ((limit - isqrt limit + (workers + 1) - 1) / (workers + 1)))
            (min (isqrt limit + 1
                + i * ((limit - isqrt limit + (workers + 1) - 1) / (workers + 1))
                + (limit - isqrt limit + (workers + 1) - 1) / (workers + 1) - 1) limit)
            (simple_sieve (isqrt limit))).length) := by
  simp only [run_master_node_counts]
  rw [List.range_succ_eq_map, List.map_cons, List.map_map]
  congr 1
  norm_num

theorem run_master_total_eq (limit workers : Nat) :
    run_master_total limit workers = (primesUpTo limit).length := by
  have hcover := segmented_covers limit (workers + 1) (by omega)
  have hlen := congrArg List.length hcover
  rw [List.length_append, List.length_flatMap] at hlen
  simp only [Function.comp_def] at hlen
  rw [run_master_total, run_master_node_counts_eq]
  exact hlen

theorem run_mpi_node_counts_eq (limit size : Nat) :
    run_mpi_node_counts limit size
      = (List.range size).map (fun i =>
          (sieve_segment
            (isqrt limit + 1 + i * ((limit - isqrt limit + size - 1) / size))
            (min (isqrt limit + 1 + i * ((limit - isqrt limit + size - 1) / size)
                + (limit - isqrt limit + size - 1) / size - 1) limit)
            (simple_sieve (isqrt limit))).length) := by
  simp only [run_mpi_node_counts]
  congr 1
  funext i
  by_cases hg : isqrt limit + 1 + i * ((limit - isqrt limit + size - 1) / size) ≤ limit
  · rw [if_pos hg]
  · rw [if_neg hg, sieve_segment_of_gt _ _ _ (by omega)]
    rfl

theorem run_mpi_total_eq (limit size : Nat) (hsz : 1 ≤ size) :
    run_mpi_total limit size = (primesUpTo limit).length := by
  have hcover := segmented_covers limit size hsz
  have hlen := congrArg List.length hcover
  rw [List.length_append, List.length_flatMap] at hlen
  simp only [Function.comp_def] at hlen
  rw [run_mpi_total, run_mpi_node_counts_eq]
  exact hlen

/-! ### Partition facts -/

theorem partitionRanges_eq (limit n : Nat) :
    partitionRanges limit n = (List.range n).map (fun i =>
      (isqrt limit + 1 + i * ((limit - isqrt limit + n - 1) / n),
       min (isqrt limit + 1 + i * ((limit - isqrt limit + n - 1) / n)
           + (limit - isqrt limit + n - 1) / n - 1) limit)) := by
  simp only [partitionRanges]

theorem partition_cover (limit n : Nat) (hn : 1 ≤ n) :
    ∀ k, (isqrt limit + 1 ≤ k ∧ k ≤ limit) ↔
      ∃ r ∈ partitionRanges limit n, r.1 ≤ k ∧ k ≤ r.2 := by
  intro k
  rw [partitionRanges_eq]
  obtain ⟨s, hs⟩ : ∃ s, isqrt limit = s := ⟨_, rfl⟩
  rw [hs]
  obtain ⟨seg, hsg⟩ : ∃ g, (limit - s + n - 1) / n = g := ⟨_, rfl⟩
  rw [hsg]
  constructor
  · rintro ⟨hk1, hk2⟩
    have hseg1 : 1 ≤ seg := by
      rw [← hsg]
      exact ceil_div_pos _ _ hn (by omega)
    have hge : limit - s ≤ n * seg := by
      have h := ceil_div_ge (limit - s) n hn
      rw [hsg] at h
      exact h
    set i := (k - (s + 1)) / seg with hi
    have hilt : i < n := by
      have h1 : i ≤ (limit - s - 1) / seg := by
        rw [hi]
        exact Nat.div_le_div_right (by omega)
      have h2 : (limit - s - 1) / seg < n := by
        rw [Nat.div_lt_iff_lt_mul (by omega)]
        have hc : n * seg = seg * n := Nat.mul_comm _ _
        omega
      omega
    have hlo : s + 1 + i * seg ≤ k := by
      have h1 : seg * i ≤ k - (s + 1) := by
        rw [hi, Nat.mul_comm]
        exact Nat.div_mul_le_self _ _
      have hc : seg * i = i * seg := Nat.mul_comm _ _
      omega
    have hhi : k - (s + 1) < seg * (i + 1) := by
      have hdm := Nat.div_add_mod (k - (s + 1)) seg
      have hmlt : (k - (s + 1)) % seg < seg := Nat.mod_lt _ (by omega)
      have hmul : seg * (i + 1) = seg * i + seg := by ring
      rw [hi] at hmul ⊢
      omega
    refine ⟨(s + 1 + i * seg,
        min (s + 1 + i * seg + seg - 1) limit), ?_, hlo, ?_⟩
    · exact List.mem_map.mpr ⟨i, List.mem_range.mpr hilt, rfl⟩
    · have hmul2 : seg * (i + 1) = seg * i + seg := by ring
      have hc : seg * i = i * seg := Nat.mul_comm _ _
      omega
  · rintro ⟨r, hrm, hr1, hr2⟩
    rcases List.mem_map.mp hrm with ⟨i, hi, rfl⟩
    constructor
    · have : 0 ≤ i * seg := Nat.zero_le _
      omega
    · omega

theorem partition_disjoint (limit n : Nat) :
    ∀ i j k : Nat, i < j →
      ¬ ((isqrt limit + 1 + i * ((limit - isqrt limit + n - 1) / n) ≤ k
          ∧ k ≤ min (isqrt limit + 1 + i * ((limit - isqrt limit + n - 1) / n)
              + (limit - isqrt limit + n - 1) / n - 1) limit)
        ∧ (isqrt limit + 1 + j * ((limit - isqrt limit + n - 1) / n) ≤ k
          ∧ k ≤ min (isqrt limit + 1 + j * ((limit - isqrt limit + n - 1) / n)
              + (limit - isqrt limit + n - 1) / n - 1) limit)) := by
  intro i j k hij
  obtain ⟨s, hs⟩ : ∃ s, isqrt limit = s := ⟨_, rfl⟩
  rw [hs]
  obtain ⟨seg, hsg⟩ : ∃ g, (limit - s + n - 1) / n = g := ⟨_, rfl⟩
  rw [hsg]
  rintro ⟨⟨hi1, hi2⟩, ⟨hj1, hj2⟩⟩
  have hle : (i + 1) * seg ≤ j * seg := Nat.mul_le_mul_right _ (by omega)
  have hmul : (i + 1) * seg = i * seg + seg := by ring
  omega

theorem partition_contiguous (limit n : Nat) (hn : 1 ≤ n) :
    ∀ i : Nat,
      min (isqrt limit + 1 + i * ((limit - isqrt limit + n - 1) / n)
          + (limit - isqrt limit + n - 1) / n - 1) limit < limit →
      isqrt limit + 1 + (i + 1) * ((limit - isqrt limit + n - 1) / n)
        = min (isqrt limit + 1 + i * ((limit - isqrt limit + n - 1) / n)
            + (limit - isqrt limit + n - 1) / n - 1) limit + 1 := by
  intro i
  obtain ⟨s, hs⟩ : ∃ s, isqrt limit = s := ⟨_, rfl⟩
  rw [hs]
  obtain ⟨seg, hsg⟩ : ∃ g, (limit - s + n - 1) / n = g := ⟨_, rfl⟩
  rw [hsg]
  intro hlt
  have hge : limit - s ≤ n * seg := by
    have h := ceil_div_ge (limit - s) n hn
    rw [hsg] at h
    exact h
  by_cases hseg0 : seg = 0
  · exfalso
    have hns : n * seg = 0 := by rw [hseg0, Nat.mul_zero]
    have hi0 : i * seg = 0 := by rw [hseg0, Nat.mul_zero]
    omega
  · have hmul : (i + 1) * seg = i * seg + seg := by ring
    omega

/-! ### The wire-format round trip -/

theorem toLeBytes8_length (x : Nat) : (toLeBytes8 x).length = 8 := rfl

theorem fromLeBytes8_toLeBytes8 (x : Nat) (hx : x < 18446744073709551616) :
    fromLeBytes8 (toLeBytes8 x) = x := by
  simp only [toLeBytes8, fromLeBytes8]
  omega

theorem flat_slices (bps : List Nat) (hp : ∀ p ∈ bps, p < 18446744073709551616) :
    (List.range bps.length).map
        (fun i => fromLeBytes8 (slice8 (bps.flatMap toLeBytes8) (i * 8))) = bps := by
  induction bps with
  | nil => rfl
  | cons p t ih =>
    have hp' : ∀ q ∈ t, q < 18446744073709551616 := fun q hq => hp q (by simp [hq])
    have hpp : p < 18446744073709551616 := hp p (by simp)
    show (List.range (t.length + 1)).map
        (fun i => fromLeBytes8 (slice8 ((p :: t).flatMap toLeBytes8) (i * 8))) = p :: t
    rw [List.flatMap_cons, List.range_succ_eq_map, List.map_cons, List.map_map]
    congr 1
    · rw [show (0 : Nat) * 8 = 0 from rfl, slice8, List.drop_zero,
        List.take_left' (toLeBytes8_length p)]
      exact fromLeBytes8_toLeBytes8 p hpp
    · have hfun : ((fun i =>
            fromLeBytes8 (slice8 (toLeBytes8 p ++ t.flatMap toLeBytes8) (i * 8)))
              ∘ Nat.succ)
          = (fun i => fromLeBytes8 (slice8 (t.flatMap toLeBytes8) (i * 8))) := by
        funext i
        simp only [Function.comp_apply]
        congr 1
        rw [slice8, slice8]
        congr 1
        have harith : Nat.succ i * 8 = 8 + i * 8 := by omega
        rw [harith, ← List.drop_drop, List.drop_left' (toLeBytes8_length p)]
      rw [hfun, ih hp']

theorem deserialize_serialize (low high : Nat) (bps : List Nat)
    (hl : low < 18446744073709551616) (hh : high < 18446744073709551616)
    (hlen : bps.length < 18446744073709551616)
    (hp : ∀ p ∈ bps, p < 18446744073709551616) :
    deserialize_work (serialize_work low high bps) = (low, high, bps) := by
  rw [serialize_work, deserialize_work]
  rw [List.append_assoc, List.append_assoc]
  have hs0 : slice8 (toLeBytes8 low ++ (toLeBytes8 high
      ++ (toLeBytes8 bps.length ++ bps.flatMap toLeBytes8))) 0 = toLeBytes8 low := by
    rw [slice8, List.drop_zero, List.take_left' (toLeBytes8_length low)]
  have hs8 : slice8 (toLeBytes8 low ++ (toLeBytes8 high
      ++ (toLeBytes8 bps.length ++ bps.flatMap toLeBytes8))) 8 = toLeBytes8 high := by
    rw [slice8, List.drop_left' (toLeBytes8_length low),
      List.take_left' (toLeBytes8_length high)]
  have hs16 : slice8 (toLeBytes8 low ++ (toLeBytes8 high
      ++ (toLeBytes8 bps.length ++ bps.flatMap toLeBytes8))) 16
      = toLeBytes8 bps.length := by
    rw [slice8, show (16 : Nat) = 8 + 8 from rfl, ← List.drop_drop,
      List.drop_left' (toLeBytes8_length low), List.drop_left' (toLeBytes8_length high),
      List.take_left' (toLeBytes8_length bps.length)]
  have hsrest : ∀ i : Nat,
      slice8 (toLeBytes8 low ++ (toLeBytes8 high
        ++ (toLeBytes8 bps.length ++ bps.flatMap toLeBytes8))) (24 + i * 8)
      = slice8 (bps.flatMap toLeBytes8) (i * 8) := by
    intro i
    rw [slice8, slice8]
    congr 1
    rw [show 24 + i * 8 = 8 + (8 + (8 + i * 8)) from by omega, ← List.drop_drop,
      ← List.drop_drop, ← List.drop_drop,
      List.drop_left' (toLeBytes8_length low), List.drop_left' (toLeBytes8_length high),
      List.drop_left' (toLeBytes8_length bps.length)]
  rw [hs0, hs8, hs16, fromLeBytes8_toLeBytes8 low hl, fromLeBytes8_toLeBytes8 high hh,
    fromLeBytes8_toLeBytes8 bps.length hlen]
  have hmap : (List.range bps.length).map
      (fun i => fromLeBytes8 (slice8 (toLeBytes8 low ++ (toLeBytes8 high
        ++ (toLeBytes8 bps.length ++ bps.flatMap toLeBytes8))) (24 + i * 8)))
      = (List.range bps.length).map
        (fun i => fromLeBytes8 (slice8 (bps.flatMap toLeBytes8) (i * 8))) := by
    congr 1
    funext i
    rw [hsrest i]
  rw [hmap, flat_slices bps hp]

/-! ### Checked models: u64 overflow and index bounds (debug semantics) -/

/-- `a + b` on u64 with the debug overflow check; `none` models the panic. -/
def checkedAdd (a b : Nat) : Option Nat :=
  if a + b < 18446744073709551616 then some (a + b) else none

/-- `a * b` on u64 with the debug overflow check. -/
def checkedMul (a b : Nat) : Option Nat :=
  if a * b < 18446744073709551616 then some (a * b) else none

/-- `a - b` on u64 with the debug underflow check. -/
def checkedSub (a b : Nat) : Option Nat :=
  if b ≤ a then some (a - b) else none

/-- `arr[i] = false` with the index bounds check. -/
def checkedSet (arr : List Bool) (i : Nat) : Option (List Bool) :=
  if i < arr.length then some (arr.set i false) else none

/-- `arr[i]` with the index bounds check. -/
def checkedGet (arr : List Bool) (i : Nat) : Option Bool :=
  if i < arr.length then some (arr.getD i false) else none

/-- Checked model of the marking `while` loop: every write index is bounds
checked, and the `multiple += step` increment computed after the last
in-range write (final value `start + cnt * step`) is checked against u64
overflow, exactly as a debug build would panic there. -/
def clearMultiplesChecked (arr : List Bool) (start step bound offset : Nat) :
    Option (List Bool) := do
  let cnt := if bound < start then 0 else (bound - start) / step + 1
  let arr2 ← (List.range' start cnt step).foldlM
    (fun a m => do
      let i ← checkedSub m offset
      checkedSet a i) arr
  if cnt = 0 then pure arr2
  else if start + cnt * step < 18446744073709551616 then pure arr2 else none

/-- Checked model of `sieve_of_eratosthenes`/`simple_sieve` under u64 debug
semantics: `none` models a panic (arithmetic overflow or an out-of-bounds
index).  At `limit = 2^64 - 1` the very first operation `limit + 1`
overflows; in a release build the same expression wraps to a zero-length
vector and the `is_prime[0] = false` write panics instead, so the call
fails under either build profile. -/
def simple_sieve_checked (limit : Nat) : Option (List Nat) :=
  if limit < 2 then some []
  else do
    let size ← checkedAdd limit 1
    let a0 := List.replicate size true
    let a1 ← checkedSet a0 0
    let a2 ← checkedSet a1 1
    let sqrt_limit := isqrt limit
    let marked ← (List.range' 2 (sqrt_limit - 1)).foldlM
      (fun a num => do
        let b ← checkedGet a num
        if b then do
          let sq ← checkedMul num num
          clearMultiplesChecked a sq num limit 0
        else pure a) a2
    pure (collectTrueIndices marked)

/-- Checked model of the segment-array construction of `sieve_segment`
(the `segment_size` computation, the allocation, and the 0/1 clears),
with the u64 and index checks. -/
def segInitChecked (low high : Nat) : Option (List Bool) := do
  let d ← checkedSub high low
  let segment_size ← checkedAdd d 1
  let a0 := List.replicate segment_size true
  let a1 ← if low = 0 ∧ 0 < segment_size then checkedSet a0 0 else pure a0
  if low ≤ 1 ∧ 1 ≤ high then do
    let i ← checkedSub 1 low
    checkedSet a1 i
  else pure a1

/-- Checked model of `sieve_segment` under u64 debug semantics.  A base
prime `< 2` would make the Rust loop divide by zero (`low % 0`) or never
terminate (`multiple += 0`); both are modelled as failure. -/
def sieve_segment_checked (low high : Nat) (base_primes : List Nat) :
    Option (List Nat) :=
  if low > high then some []
  else do
    let a2 ← segInitChecked low high
    let marked ← base_primes.foldlM
      (fun a p => do
        if p < 2 then none
        else do
          let sq ← checkedMul p p
          if high < sq then pure a
          else do
            let start ← if low ≤ sq then pure sq
              else if low % p = 0 then pure low
              else do
                let d2 ← checkedSub p (low % p)
                checkedAdd low d2
            clearMultiplesChecked a start p high low) a2
    pure (((collectTrueIndices marked).map (fun idx => low + idx)).filter (fun n => 1 < n))

theorem foldlM_clear_eq (offset : Nat) :
    ∀ (L : List Nat) (arr : List Bool),
      (∀ m ∈ L, offset ≤ m ∧ m - offset < arr.length) →
      (L.foldlM (fun a m => do
          let i ← checkedSub m offset
          checkedSet a i) arr)
        = some (L.foldl (fun a m => a.set (m - offset) false) arr) := by
  intro L
  induction L with
  | nil => intro arr _; rfl
  | cons m t ih =>
    intro arr hall
    obtain ⟨hm1, hm2⟩ := hall m (by simp)
    have h1 : checkedSub m offset = some (m - offset) := by
      rw [checkedSub, if_pos hm1]
    have h2 : checkedSet arr (m - offset) = some (arr.set (m - offset) false) := by
      rw [checkedSet, if_pos hm2]
    rw [List.foldlM_cons]
    simp only [h1, h2, Option.bind_eq_bind, Option.some_bind]
    rw [List.foldl_cons]
    apply ih
    intro x hx
    obtain ⟨hx1, hx2⟩ := hall x (by simp [hx])
    exact ⟨hx1, by rw [List.length_set]; exact hx2⟩

theorem clearMultiplesChecked_eq (arr : List Bool) (start step bound offset : Nat)
    (hstep : 1 ≤ step) (hso : offset ≤ start) (hb : bound < offset + arr.length)
    (hov : bound + step < 18446744073709551616) :
    clearMultiplesChecked arr start step bound offset
      = some (clearMultiples arr start step bound offset) := by
  rw [clearMultiplesChecked, clearMultiples]
  have hfold := foldlM_clear_eq offset
    (List.range' start (if bound < start then 0 else (bound - start) / step + 1) step) arr
    (by
      intro m hm
      rcases (mem_clearList hstep).mp hm with ⟨h1, h2, -⟩
      exact ⟨by omega, by omega⟩)
  simp only [Option.bind_eq_bind] at hfold ⊢
  rw [hfold]
  simp only [Option.some_bind]
  by_cases hcnt : (if bound < start then 0 else (bound - start) / step + 1) = 0
  · rw [if_pos hcnt]
    rfl
  · rw [if_neg hcnt]
    have hcnt' : ¬ bound < start := by
      by_contra hbs
      rw [if_pos hbs] at hcnt
      exact hcnt rfl
    have hle : start + (if bound < start then 0 else (bound - start) / step + 1) * step
        < 18446744073709551616 := by
      rw [if_neg hcnt']
      have hdiv : (bound - start) / step * step ≤ bound - start := Nat.div_mul_le_self _ _
      have hmul : ((bound - start) / step + 1) * step
          = (bound - start) / step * step + step := by ring
      omega
    rw [if_pos hle]
    rfl

theorem simple_sieve_checked_eq (limit : Nat)
    (h : limit + Nat.sqrt limit < 18446744073709551616) :
    simple_sieve_checked limit = some (simple_sieve limit) := by
  by_cases hlim : limit < 2
  · rw [simple_sieve_checked, if_pos hlim, simple_sieve, if_pos hlim]
  · push_neg at hlim
    have hs1 : 1 ≤ Nat.sqrt limit := Nat.le_sqrt.mpr (by omega)
    have hl1 : limit + 1 < 18446744073709551616 := by omega
    have h1 : checkedAdd limit 1 = some (limit + 1) := by rw [checkedAdd, if_pos hl1]
    have h2 : checkedSet (List.replicate (limit + 1) true) 0
        = some ((List.replicate (limit + 1) true).set 0 false) := by
      rw [checkedSet, if_pos]
      rw [List.length_replicate]
      omega
    have h3 : checkedSet ((List.replicate (limit + 1) true).set 0 false) 1
        = some (((List.replicate (limit + 1) true).set 0 false).set 1 false) := by
      rw [checkedSet, if_pos]
      rw [List.length_set, List.length_replicate]
      omega
    have hloop : ∀ (L : List Nat), (∀ num ∈ L, 2 ≤ num ∧ num ≤ Nat.sqrt limit) →
        ∀ arr : List Bool, arr.length = limit + 1 →
        (L.foldlM (fun a num => do
            let b ← checkedGet a num
            if b then do
              let sq ← checkedMul num num
              clearMultiplesChecked a sq num limit 0
            else pure a) arr)
          = some (L.foldl
              (fun a num =>
                if a.getD num false then clearMultiples a (num * num) num limit 0 else a)
              arr) := by
      intro L
      induction L with
      | nil => intro _ arr _; rfl
      | cons num t ih =>
        intro hall arr hlen
        obtain ⟨hn2, hns⟩ := hall num (by simp)
        have hnl : num ≤ limit := by
          have := Nat.sqrt_le_self limit
          omega
        have hbg : checkedGet arr num = some (arr.getD num false) := by
          rw [checkedGet, if_pos]
          omega
        rw [List.foldlM_cons, List.foldl_cons]
        rcases hgd : arr.getD num false with _ | _
        · rw [hbg, hgd]
          simp only [Option.bind_eq_bind, Option.some_bind, Bool.false_eq_true, if_false]
          exact ih (fun x hx => hall x (by simp [hx])) arr hlen
        · have hsq : checkedMul num num = some (num * num) := by
            rw [checkedMul, if_pos]
            have hle : num * num ≤ Nat.sqrt limit * Nat.sqrt limit :=
              Nat.mul_le_mul hns hns
            have := Nat.sqrt_le limit
            omega
          have hclear : clearMultiplesChecked arr (num * num) num limit 0
              = some (clearMultiples arr (num * num) num limit 0) := by
            apply clearMultiplesChecked_eq
            · omega
            · omega
            · omega
            · omega
          rw [hbg, hgd]
          simp only [Option.bind_eq_bind, Option.some_bind, eq_self_iff_true, if_true,
            hsq, hclear]
          apply ih (fun x hx => hall x (by simp [hx]))
          rw [clearMultiples_length, hlen]
    rw [simple_sieve_checked, if_neg (by omega), simple_sieve, if_neg (by omega)]
    have hrange : ∀ num ∈ List.range' 2 (isqrt limit - 1), 2 ≤ num ∧ num ≤ Nat.sqrt limit := by
      intro num hnum
      have hm := List.mem_range'_1.mp hnum
      have := isqrt_eq_sqrt limit
      constructor
      · omega
      · omega
    have hfold := hloop (List.range' 2 (isqrt limit - 1)) hrange
      (((List.replicate (limit + 1) true).set 0 false).set 1 false)
      (by rw [List.length_set, List.length_set, List.length_replicate])
    simp only [Option.bind_eq_bind, Option.pure_def] at hfold
    simp only [h1, h2, h3, Option.bind_eq_bind, Option.some_bind, Option.pure_def, hfold]

theorem sieve_segment_unfold (low high : Nat) (bps : List Nat) (h : ¬ low > high) :
    sieve_segment low high bps
      = ((collectTrueIndices (segFold low high bps)).map (fun idx => low + idx)).filter
          (fun n => 1 < n) := by
  simp only [sieve_segment, if_neg h, segFold, segInit]

theorem segInitChecked_eq (low high : Nat) (hlh : low ≤ high)
    (hsz : high - low + 1 < 18446744073709551616) :
    segInitChecked low high = some (segInit low high) := by
  rw [segInitChecked]
  have h1 : checkedSub high low = some (high - low) := by rw [checkedSub, if_pos hlh]
  have h2 : checkedAdd (high - low) 1 = some (high - low + 1) := by
    rw [checkedAdd, if_pos hsz]
  simp only [h1, h2, Option.bind_eq_bind, Option.some_bind]
  by_cases hc1 : low = 0 ∧ 0 < high - low + 1
  · have hset0 : checkedSet (List.replicate (high - low + 1) true) 0
        = some ((List.replicate (high - low + 1) true).set 0 false) := by
      rw [checkedSet, if_pos]
      rw [List.length_replicate]
      omega
    rw [if_pos hc1]
    simp only [hset0, Option.some_bind]
    by_cases hc2 : low ≤ 1 ∧ 1 ≤ high
    · rw [if_pos hc2]
      have hsub : checkedSub 1 low = some (1 - low) := by rw [checkedSub, if_pos hc2.1]
      simp only [hsub, Option.bind_eq_bind, Option.some_bind]
      rw [checkedSet, if_pos (by rw [List.length_set, List.length_replicate]; omega)]
      simp only [segInit]
      rw [if_pos hc2, if_pos hc1]
    · rw [if_neg hc2]
      simp only [Option.pure_def, segInit]
      rw [if_neg hc2, if_pos hc1]
  · rw [if_neg hc1]
    simp only [Option.pure_def, Option.some_bind]
    by_cases hc2 : low ≤ 1 ∧ 1 ≤ high
    · rw [if_pos hc2]
      have hsub : checkedSub 1 low = some (1 - low) := by rw [checkedSub, if_pos hc2.1]
      simp only [hsub, Option.bind_eq_bind, Option.some_bind]
      rw [checkedSet, if_pos (by rw [List.length_replicate]; omega)]
      simp only [segInit]
      rw [if_pos hc2, if_neg hc1]
    · rw [if_neg hc2]
      simp only [segInit]
      rw [if_neg hc2, if_neg hc1]

theorem sieve_segment_checked_eq (low high : Nat) (bps : List Nat)
    (hlh : low ≤ high) (hsz : high - low + 1 < 18446744073709551616)
    (hp : ∀ p ∈ bps, 2 ≤ p ∧ p * p < 18446744073709551616
      ∧ high + p < 18446744073709551616) :
    sieve_segment_checked low high bps = some (sieve_segment low high bps) := by
  have hng : ¬ low > high := by omega
  rw [sieve_segment_checked, if_neg hng, sieve_segment_unfold low high bps hng]
  have hloop : ∀ (L : List Nat),
      (∀ p ∈ L, 2 ≤ p ∧ p * p < 18446744073709551616
        ∧ high + p < 18446744073709551616) →
      ∀ arr : List Bool, arr.length = high - low + 1 →
      (L.foldlM (fun a p => do
          if p < 2 then none
          else do
            let sq ← checkedMul p p
            if high < sq then pure a
            else do
              let start ← if low ≤ sq then pure sq
                else if low % p = 0 then pure low
                else do
                  let d2 ← checkedSub p (low % p)
                  checkedAdd low d2
              clearMultiplesChecked a start p high low) arr)
        = some (L.foldl (fun a p =>
            if high < p * p then a
            else clearMultiples a
              (if low ≤ p * p then p * p else if low % p = 0 then low
                else low + (p - low % p))
              p high low) arr) := by
    intro L
    induction L with
    | nil => intro _ arr _; rfl
    | cons p t ih =>
      intro hall arr hlen
      obtain ⟨hp2, hpsq, hhp⟩ := hall p (by simp)
      rw [List.foldlM_cons, List.foldl_cons]
      have hnot2 : ¬ p < 2 := by omega
      have hmul : checkedMul p p = some (p * p) := by rw [checkedMul, if_pos hpsq]
      by_cases hskip : high < p * p
      · simp only [if_neg hnot2, hmul, Option.bind_eq_bind, Option.some_bind,
          if_pos hskip, Option.pure_def]
        exact ih (fun x hx => hall x (by simp [hx])) arr hlen
      · have hclear : ∀ start : Nat, low ≤ start →
            clearMultiplesChecked arr start p high low
              = some (clearMultiples arr start p high low) := by
          intro start hge
          apply clearMultiplesChecked_eq
          · omega
          · exact hge
          · omega
          · omega
        have hdistrib : (if low ≤ p * p then clearMultiplesChecked arr (p * p) p high low
              else if low % p = 0 then clearMultiplesChecked arr low p high low
              else (checkedSub p (low % p)).bind fun d2 =>
                (checkedAdd low d2).bind fun y => clearMultiplesChecked arr y p high low)
            = some (clearMultiples arr
                (if low ≤ p * p then p * p else if low % p = 0 then low
                  else low + (p - low % p)) p high low) := by
          by_cases hb1 : low ≤ p * p
          · rw [if_pos hb1, if_pos hb1]
            exact hclear _ hb1
          · rw [if_neg hb1, if_neg hb1]
            by_cases hb2 : low % p = 0
            · rw [if_pos hb2, if_pos hb2]
              exact hclear _ (le_refl _)
            · rw [if_neg hb2, if_neg hb2]
              have hmlt : low % p < p := Nat.mod_lt _ (by omega)
              have hsub : checkedSub p (low % p) = some (p - low % p) := by
                rw [checkedSub, if_pos (by omega)]
              have hadd : checkedAdd low (p - low % p) = some (low + (p - low % p)) := by
                rw [checkedAdd, if_pos (by omega)]
              simp only [hsub, hadd, Option.some_bind]
              exact hclear _ (by omega)
        simp only [if_neg hnot2, hmul, Option.bind_eq_bind, Option.some_bind,
          if_neg hskip, Option.pure_def, hdistrib]
        apply ih (fun x hx => hall x (by simp [hx]))
        rw [clearMultiples_length, hlen]
  have hfold := hloop bps hp (segInit low high) (segInit_length low high)
  have hinit := segInitChecked_eq low high hlh hsz
  simp only [Option.bind_eq_bind, Option.pure_def, Option.some_bind] at hfold
  have hsegfold : segFold low high bps
      = bps.foldl (fun a p =>
          if high < p * p then a
          else clearMultiples a
            (if low ≤ p * p then p * p else if low % p = 0 then low
              else low + (p - low % p))
            p high low) (segInit low high) := rfl
  simp only [hinit, Option.bind_eq_bind, Option.some_bind, Option.pure_def, hfold,
    hsegfold]

/-! ### A bounded trial-division primality check, for fast kernel evaluation -/

/-- Bounded trial division: `n` is at least 2 and no `d` in `[2, 2 + b)`
with `d * d ≤ n` divides `n`.  Used only to evaluate `primesUpTo` on
concrete inputs quickly. -/
def isPrimeUpTo (b n : Nat) : Bool :=
  decide (2 ≤ n) && ((List.range' 2 b).all fun d => decide (n < d * d) || decide (¬ d ∣ n))

theorem isPrimeUpTo_eq (b n : Nat) (hb : n < (2 + b) * (2 + b)) :
    isPrimeUpTo b n = decide (Nat.Prime n) := by
  rw [isPrimeUpTo]
  by_cases h2 : 2 ≤ n
  · have hiff : (∀ d ∈ List.range' 2 b, (n < d * d ∨ ¬ d ∣ n)) ↔ Nat.Prime n := by
      constructor
      · intro hall
        by_contra hnp
        have hm := Nat.minFac_prime (show n ≠ 1 by omega)
        have hmd := Nat.minFac_dvd n
        have hmsq : n.minFac * n.minFac ≤ n := by
          have := Nat.minFac_sq_le_self (show 0 < n by omega) hnp
          rwa [pow_two] at this
        have hm2 : 2 ≤ n.minFac := hm.two_le
        have hmlt : n.minFac < 2 + b := by nlinarith
        have hmem : n.minFac ∈ List.range' 2 b := List.mem_range'_1.mpr ⟨hm2, by omega⟩
        rcases hall _ hmem with h | h
        · omega
        · exact h hmd
      · intro hp d hd
        have hd2 : 2 ≤ d := (List.mem_range'_1.mp hd).1
        by_cases hlt : n < d * d
        · exact Or.inl hlt
        · right
          intro hdvd
          rcases hp.eq_one_or_self_of_dvd d hdvd with rfl | rfl
          · omega
          · push_neg at hlt
            nlinarith [hp.two_le]
    rcases hall : ((List.range' 2 b).all fun d => decide (n < d * d) || decide (¬ d ∣ n))
        with _ | _
    · have hnp : ¬ Nat.Prime n := by
        intro hp
        have hptw : ∀ d ∈ List.range' 2 b,
            (decide (n < d * d) || decide (¬ d ∣ n)) = true := by
          intro d hd
          rcases hiff.mpr hp d hd with h | h
          · simp [h]
          · simp [h]
        rw [List.all_eq_true.mpr hptw] at hall
        exact Bool.false_ne_true hall.symm
      simp [hnp]
    · have hp : Nat.Prime n := by
        apply hiff.mp
        intro d hd
        have hh := List.all_eq_true.mp hall d hd
        rcases Bool.or_eq_true_iff.mp hh with h | h
        · exact Or.inl (of_decide_eq_true h)
        · exact Or.inr (of_decide_eq_true h)
      simp [h2, hp]
  · have hnp : ¬ Nat.Prime n := fun hp => h2 hp.two_le
    simp [h2, hnp]

theorem primesUpTo_eval (m : Nat) (hm : m < 1023) :
    primesUpTo m = (List.range (m + 1)).filter (fun k => isPrimeUpTo 30 k) := by
  rw [primesUpTo]
  apply List.filter_congr
  intro k hk
  have hk' : k < m + 1 := List.mem_range.mp hk
  rw [isPrimeUpTo_eq 30 k (by omega)]

/-! ### Claim theorems -/

/-- C1: for every `limit` and every `num_threads ≥ 1`, the multithreaded
segmented sieve (`segmented_sieve_parallel`) returns exactly the prime
sequence of the plain sequential sieve; in particular worker counts
1, 2, 4 and 8 all give the identical sorted prime sequence (hence the
identical total count). -/
theorem C1_parallel_matches_sequential :
    (∀ limit num_threads : Nat, 1 ≤ num_threads →
      segmented_sieve_parallel limit num_threads = sieve_of_eratosthenes limit)
    ∧ (∀ limit : Nat,
        segmented_sieve_parallel limit 1 = segmented_sieve_parallel limit 2
        ∧ segmented_sieve_parallel limit 2 = segmented_sieve_parallel limit 4
        ∧ segmented_sieve_parallel limit 4 = segmented_sieve_parallel limit 8) := by
  constructor
  · exact segmented_parallel_eq_sequential
  · intro limit
    refine ⟨?_, ?_, ?_⟩ <;>
      rw [segmented_parallel_eq_sequential _ _ (by omega),
        segmented_parallel_eq_sequential _ _ (by omega)]

/-- Witness for C1 at `limit = 100`, `num_threads = 4`. -/
theorem C1_witness :
    (1 ≤ 4) ∧ segmented_sieve_parallel 100 4 = sieve_of_eratosthenes 100 :=
  ⟨by decide, C1_parallel_matches_sequential.1 100 4 (by decide)⟩

set_option maxRecDepth 100000

set_option maxHeartbeats 1000000

/-- C2: `sieve_of_eratosthenes` (identically `simple_sieve`) returns, for
every `limit`, exactly the ordered list of all primes `≤ limit`; the limits
0 and 1 give the empty sequence, limit 2 gives `[2]`, limit 100 gives 25
primes and limit 1000 gives 168 primes. -/
theorem C2_base_sieve_correct :
    (∀ limit : Nat, sieve_of_eratosthenes limit = primesUpTo limit)
    ∧ sieve_of_eratosthenes 0 = []
    ∧ sieve_of_eratosthenes 1 = []
    ∧ sieve_of_eratosthenes 2 = [2]
    ∧ (sieve_of_eratosthenes 100).length = 25
    ∧ (sieve_of_eratosthenes 1000).length = 168
    ∧ (∀ limit : Nat, simple_sieve limit = sieve_of_eratosthenes limit) := by
  refine ⟨sieve_of_eratosthenes_eq_primesUpTo, by decide, by decide, by decide,
    ?_, ?_, fun limit => rfl⟩
  · rw [sieve_of_eratosthenes_eq_primesUpTo, primesUpTo_eval 100 (by omega)]
    decide
  · rw [sieve_of_eratosthenes_eq_primesUpTo, primesUpTo_eval 1000 (by omega)]
    decide

/-- C3: `sieve_segment` returns, for `low ≤ high` and a base-prime list that
contains every prime `p` with `p * p ≤ high` (and whose members are all
`≥ 2`), exactly the ordered primes in `[low, high]` (0 and 1 excluded even
when in range, since only primes are returned); for `low > high` it returns
the empty list; and `sieve_segment 10 30 [2,3,5,7] = [11,13,17,19,23,29]`. -/
theorem C3_segment_sieve_correct :
    (∀ (low high : Nat) (bps : List Nat), low ≤ high →
        (∀ p ∈ bps, 2 ≤ p) → (∀ p, Nat.Prime p → p * p ≤ high → p ∈ bps) →
        sieve_segment low high bps = primesInRange low high)
    ∧ (∀ (low high : Nat) (bps : List Nat), high < low → sieve_segment low high bps = [])
    ∧ sieve_segment 10 30 [2, 3, 5, 7] = [11, 13, 17, 19, 23, 29] := by
  refine ⟨sieve_segment_eq_primesInRange,
    fun low high bps h => sieve_segment_of_gt low high bps h, by decide⟩

/-- Witness for C3 at `low = 10`, `high = 30`, `bps = [2,3,5,7]`. -/
theorem C3_witness :
    sieve_segment 10 30 [2, 3, 5, 7] = primesInRange 10 30 :=
  C3_segment_sieve_correct.1 10 30 [2, 3, 5, 7] (by decide) (by decide)
    (by
      intro p hp hsq
      have h2 : 2 ≤ p := hp.two_le
      have h5 : p ≤ 5 := by nlinarith
      interval_cases p
      · decide
      · decide
      · exact absurd hp (by decide)
      · decide)

/-- C4: for every `limit` and `worker_count ≥ 1`, the partitioner's ranges
(low `range_start + i * segment_size`, high capped at `limit`, with
`segment_size = ceil(range_size / worker_count)`) are pairwise disjoint,
contiguous, and cover exactly `[base_prime_limit + 1, limit]`; a worker
whose low exceeds `limit` has an empty range and its segment sieve returns
no primes. -/
theorem C4_partition_correct :
    ∀ limit n : Nat, 1 ≤ n →
      (partitionRanges limit n = (List.range n).map (fun i =>
        (isqrt limit + 1 + i * ((limit - isqrt limit + n - 1) / n),
         min (isqrt limit + 1 + i * ((limit - isqrt limit + n - 1) / n)
             + (limit - isqrt limit + n - 1) / n - 1) limit)))
      ∧ (∀ k, (isqrt limit + 1 ≤ k ∧ k ≤ limit) ↔
          ∃ r ∈ partitionRanges limit n, r.1 ≤ k ∧ k ≤ r.2)
      ∧ (∀ i j k : Nat, i < j →
          ¬ ((isqrt limit + 1 + i * ((limit - isqrt limit + n - 1) / n) ≤ k
              ∧ k ≤ min (isqrt limit + 1 + i * ((limit - isqrt limit + n - 1) / n)
                  + (limit - isqrt limit + n - 1) / n - 1) limit)
            ∧ (isqrt limit + 1 + j * ((limit - isqrt limit + n - 1) / n) ≤ k
              ∧ k ≤ min (isqrt limit + 1 + j * ((limit - isqrt limit + n - 1) / n)
                  + (limit - isqrt limit + n - 1) / n - 1) limit)))
      ∧ (∀ i : Nat,
          min (isqrt limit + 1 + i * ((limit - isqrt limit + n - 1) / n)
              + (limit - isqrt limit + n - 1) / n - 1) limit < limit →
          isqrt limit + 1 + (i + 1) * ((limit - isqrt limit + n - 1) / n)
            = min (isqrt limit + 1 + i * ((limit - isqrt limit + n - 1) / n)
                + (limit - isqrt limit + n - 1) / n - 1) limit + 1)
      ∧ (∀ i : Nat,
          limit < isqrt limit + 1 + i * ((limit - isqrt limit + n - 1) / n) →
          min (isqrt limit + 1 + i * ((limit - isqrt limit + n - 1) / n)
              + (limit - isqrt limit + n - 1) / n - 1) limit
            < isqrt limit + 1 + i * ((limit - isqrt limit + n - 1) / n)
          ∧ sieve_segment (isqrt limit + 1 + i * ((limit - isqrt limit + n - 1) / n))
              (min (isqrt limit + 1 + i * ((limit - isqrt limit + n - 1) / n)
                  + (limit - isqrt limit + n - 1) / n - 1) limit)
              (simple_sieve (isqrt limit)) = []) := by
  intro limit n hn
  refine ⟨partitionRanges_eq limit n, partition_cover limit n hn,
    partition_disjoint limit n, partition_contiguous limit n hn, ?_⟩
  intro i hlo
  constructor
  · omega
  · exact sieve_segment_of_gt _ _ _ (by omega)

/-- Witness for C4 at `limit = 10000`, `n = 4`. -/
theorem C4_witness :
    (1 ≤ 4) ∧ (∀ k, (isqrt 10000 + 1 ≤ k ∧ k ≤ 10000) ↔
      ∃ r ∈ partitionRanges 10000 4, r.1 ≤ k ∧ k ≤ r.2) :=
  ⟨by decide, (C4_partition_correct 10000 4 (by decide)).2.1⟩

/-- C5: in the TCP-master strategy and the MPI strategy alike, the aggregate
equals base prime count plus the sum of the per-node segment counts (by the
very definition of the totals), this total equals the number of primes
`≤ limit`, and no base prime is ever recounted: every partition range starts
strictly above the base-prime limit. -/
theorem C5_aggregation_totals :
    (∀ limit workers : Nat,
        run_master_total limit workers
          = (simple_sieve (isqrt limit)).length
            + (run_master_node_counts limit workers).sum
        ∧ run_master_total limit workers = (primesUpTo limit).length)
    ∧ (∀ limit size : Nat, 1 ≤ size →
        run_mpi_total limit size
          = (simple_sieve (isqrt limit)).length + (run_mpi_node_counts limit size).sum
        ∧ run_mpi_total limit size = (primesUpTo limit).length)
    ∧ (∀ limit n : Nat, ∀ r ∈ partitionRanges limit n, isqrt limit < r.1) := by
  refine ⟨?_, ?_, ?_⟩
  · intro limit workers
    exact ⟨rfl, run_master_total_eq limit workers⟩
  · intro limit size hsz
    exact ⟨rfl, run_mpi_total_eq limit size hsz⟩
  · intro limit n r hr
    rw [partitionRanges_eq] at hr
    rcases List.mem_map.mp hr with ⟨i, -, rfl⟩
    dsimp only
    omega

/-- Witness for C5 at `limit = 1000` with 3 workers (master) resp. 4 ranks. -/
theorem C5_witness :
    (1 ≤ 4) ∧ run_mpi_total 1000 4 = (primesUpTo 1000).length
    ∧ run_master_total 1000 3 = (primesUpTo 1000).length :=
  ⟨by decide, (C5_aggregation_totals.2.1 1000 4 (by decide)).2,
    (C5_aggregation_totals.1 1000 3).2⟩

/-- C6 counterexample: the claim states the base primes are the primes up
to the ceiling ⌈√N⌉ and the ranges cover [⌈√N⌉+1, N], but the code takes
the floor.  At `N = 8`: ⌈√8⌉ = 3, yet the engine's base primes are
`simple_sieve ⌊√8⌋ = [2] ≠ [2, 3] = primesUpTo ⌈√8⌉`, and the value 3 lies
inside the partition's first range `(3, 8)` although `3 < ⌈√8⌉ + 1 = 4`. -/
theorem C6_counterexample :
    ceilSqrt 8 = 3
    ∧ simple_sieve (isqrt 8) ≠ primesUpTo (ceilSqrt 8)
    ∧ (∃ r ∈ partitionRanges 8 1, r.1 ≤ 3 ∧ 3 ≤ r.2)
    ∧ ¬ (ceilSqrt 8 + 1 ≤ 3) := by decide

/-- C6 amended: the base-prime set is exactly the set of primes up to the
floor ⌊√N⌋ (which is what `(N as f64).sqrt() as u64` computes), and for
`worker_count ≥ 1` the union of the worker ranges is exactly
[⌊√N⌋ + 1, N], with zero overlap. -/
theorem C6_base_and_union_floor :
    ∀ limit n : Nat, 1 ≤ n →
      simple_sieve (isqrt limit) = primesUpTo (isqrt limit)
      ∧ (∀ k, (isqrt limit + 1 ≤ k ∧ k ≤ limit) ↔
          ∃ r ∈ partitionRanges limit n, r.1 ≤ k ∧ k ≤ r.2)
      ∧ (∀ i j k : Nat, i < j →
          ¬ ((isqrt limit + 1 + i * ((limit - isqrt limit + n - 1) / n) ≤ k
              ∧ k ≤ min (isqrt limit + 1 + i * ((limit - isqrt limit + n - 1) / n)
                  + (limit - isqrt limit + n - 1) / n - 1) limit)
            ∧ (isqrt limit + 1 + j * ((limit - isqrt limit + n - 1) / n) ≤ k
              ∧ k ≤ min (isqrt limit + 1 + j * ((limit - isqrt limit + n - 1) / n)
                  + (limit - isqrt limit + n - 1) / n - 1) limit))) :=
  fun limit n hn =>
    ⟨simple_sieve_eq_primesUpTo (isqrt limit), partition_cover limit n hn,
      partition_disjoint limit n⟩

/-- Witness for C6 (amended) at `limit = 100`, `n = 4`. -/
theorem C6_witness :
    (1 ≤ 4) ∧ simple_sieve (isqrt 100) = primesUpTo (isqrt 100) :=
  ⟨by decide, (C6_base_and_union_floor 100 4 (by decide)).1⟩

/-- C7: decoding an encoded work message returns the original
`(low, high, base_primes)` tuple unchanged, for any u64 values. -/
theorem C7_work_message_roundtrip :
    ∀ (low high : Nat) (base_primes : List Nat),
      low < 18446744073709551616 → high < 18446744073709551616 →
      base_primes.length < 18446744073709551616 →
      (∀ p ∈ base_primes, p < 18446744073709551616) →
      deserialize_work (serialize_work low high base_primes)
        = (low, high, base_primes) :=
  deserialize_serialize

/-- Witness for C7 with base-prime counts 0, 1 and many. -/
theorem C7_witness :
    deserialize_work (serialize_work 3 9 []) = (3, 9, [])
    ∧ deserialize_work (serialize_work 10 30 [2]) = (10, 30, [2])
    ∧ deserialize_work (serialize_work 10 30 [2, 3, 5, 7]) = (10, 30, [2, 3, 5, 7]) :=
  ⟨C7_work_message_roundtrip 3 9 [] (by decide) (by decide) (by decide) (by decide),
   C7_work_message_roundtrip 10 30 [2] (by decide) (by decide) (by decide) (by decide),
   C7_work_message_roundtrip 10 30 [2, 3, 5, 7] (by decide) (by decide) (by decide)
     (by decide)⟩

/-- C8 counterexample: in TCP master mode a bind/listen failure makes
`run_master` return `Err`, and `main` (primes-mpi lines 499-509) prints the
error and calls `std::process::exit(1)` — the run terminates with exit code
1 instead of falling back to the single-node computation, so the error is
propagated as a failure of the run, contradicting the claim. -/
theorem C8_counterexample :
    main_model false true 100 (Except.ok ()) (Except.error "Failed to bind") none
        = RunOutcome.exited 1
    ∧ main_model false true 100 (Except.ok ()) (Except.error "Failed to bind") none
        ≠ RunOutcome.printed (run_single_node_total 100) := by
  constructor
  · rfl
  · intro h
    exact RunOutcome.noConfusion h

/-- C8 amended: only the collective (MPI) strategy degrades gracefully — on
an MPI initialization error `main` falls back to `run_single_node` and
prints its complete result (which equals the true prime count); a socket
bind or listen failure in TCP master mode instead terminates the program
with exit code 1 and no fallback. -/
theorem C8_fallback_behaviour :
    (∀ (limit : Nat) (e : String) (w : Except String Unit),
        main_model false false limit w (Except.ok 0) (some (Except.error e))
          = RunOutcome.printed (run_single_node_total limit))
    ∧ (∀ (limit : Nat) (w : Except String Unit), main_model false false limit w
        (Except.ok 0) none = RunOutcome.printed (run_single_node_total limit))
    ∧ (∀ (limit : Nat) (w : Except String Unit) (m : Option (Except String Nat))
        (e : String),
        main_model false true limit w (Except.error e) m = RunOutcome.exited 1)
    ∧ (∀ limit : Nat, run_single_node_total limit = (primesUpTo limit).length) := by
  refine ⟨fun _ _ _ => rfl, fun _ _ => rfl, fun _ _ _ _ => rfl, ?_⟩
  intro limit
  rw [run_single_node_total, simple_sieve_eq_primesUpTo]

/-- C9 counterexample: at `limit = 2^64 - 1` the very first computation
`limit + 1` overflows u64 and the routine fails (debug: overflow panic;
release: the wrapped size is 0, so `is_prime[0] = false` is an
out-of-bounds write panic), so BaseSieve does fail at the extreme of the
u64 input range, contradicting "never fails ... including at the extremes
of the u64 input range". -/
theorem C9_counterexample :
    simple_sieve_checked 18446744073709551615 = none := by rfl

/-- C9 amended: the base sieve never fails provided its u64 arithmetic
cannot overflow: for every `limit` with `limit + ⌊√limit⌋ < 2^64` — true of
every limit in the documented ~10^10 input scale — the fully checked model
performs every operation in bounds and returns exactly the value of the
pure model (for both names of the routine). -/
theorem C9_base_sieve_total :
    ∀ limit : Nat, limit + isqrt limit < 18446744073709551616 →
      simple_sieve_checked limit = some (simple_sieve limit)
      ∧ simple_sieve_checked limit = some (sieve_of_eratosthenes limit) := by
  intro limit h
  rw [isqrt_eq_sqrt] at h
  exact ⟨simple_sieve_checked_eq limit h, simple_sieve_checked_eq limit h⟩

/-- Witness for C9 at `limit = 30`. -/
theorem C9_witness :
    (30 + isqrt 30 < 18446744073709551616)
    ∧ simple_sieve_checked 30 = some (simple_sieve 30) :=
  ⟨by decide, (C9_base_sieve_total 30 (by decide)).1⟩

/-- C10 counterexample: the claim's preconditions all hold at
`low = 2^64 - 2`, `high = 2^64 - 1`, `base_primes = [3]` (low ≤ high, the
segment size 2 does not overflow, 3 ≥ 2 and 3 * 3 does not overflow), yet
the function is not total there: after clearing local index 1 for the
multiple 2^64 - 1, the loop computes `multiple += 3`, which overflows u64
(debug: panic; release: the wrapped multiple 2 makes `multiple - low`
underflow and the resulting local index is out of bounds). -/
theorem C10_counterexample :
    (18446744073709551614 ≤ 18446744073709551615
      ∧ 18446744073709551615 - 18446744073709551614 + 1 < 18446744073709551616
      ∧ (∀ p ∈ [3], 2 ≤ p ∧ p * p < 18446744073709551616))
    ∧ sieve_segment_checked 18446744073709551614 18446744073709551615 [3] = none := by
  refine ⟨⟨by decide, by decide, by decide⟩, by rfl⟩

/-- C10 amended: with the preconditions strengthened by
`high + p < 2^64` for every base prime `p` — ruling out overflow of the
`multiple += prime` increment, which the original preconditions do not —
every u64 operation and every local-array access of `sieve_segment` is in
bounds and the function is total, returning the pure model's value. -/
theorem C10_segment_sieve_safe :
    ∀ (low high : Nat) (base_primes : List Nat),
      low ≤ high → high - low + 1 < 18446744073709551616 →
      (∀ p ∈ base_primes, 2 ≤ p ∧ p * p < 18446744073709551616
        ∧ high + p < 18446744073709551616) →
      sieve_segment_checked low high base_primes
        = some (sieve_segment low high base_primes) :=
  sieve_segment_checked_eq

/-- Witness for C10 at `low = 10`, `high = 30`, `base_primes = [2,3,5,7]`. -/
theorem C10_witness :
    sieve_segment_checked 10 30 [2, 3, 5, 7]
      = some (sieve_segment 10 30 [2, 3, 5, 7]) :=
  C10_segment_sieve_safe 10 30 [2, 3, 5, 7] (by decide) (by decide) (by decide)
